import Mathlib

/-!
# Bluetooth-RoverC: command queue, speed ramp, motor loop and command intake

A shallow embedding of `command_queue.cpp` and of the control code of
`main.cpp` (speed_ramp, rover_set_motors, move_rover, rover_stop, the demo
preload and the four cases of the state machine of `loop`), followed by the
properties proved about them.

Conventions of the embedding:
* an `int` is an `Int`; an `int8_t` is an `Int` kept in `[-128, 127]`, and a
  store of an `int` expression into an `int8_t` goes through `toInt8`;
* `std::queue<int>` is a `List Int`, head of the list = front of the queue;
* a byte delivered by `SerialBT.read()` is a `Nat` (its value `0..255`);
* loops that can fail to end carry a fuel argument and return `none` when the
  fuel is used up before the loop condition turns false;
* `sin`, `cos` and the products in `move_rover` are taken over the reals, so
  the definitions that depend on them are not computable.
-/

namespace RoverC

/-! ## Definitions: command_queue.cpp -/

/-- The global `std::queue<int> Command_queue`, front first. -/
abbrev Queue := List Int

/-- Source: `code_queue_add`, `Command_queue.push(val)`. -/
def code_queue_add (q : Queue) (val : Int) : Queue :=
  q ++ [val]

/-- Source: `code_queue_get`. The argument `val` is the content of `*val`
before the call; the result is the returned flag, the content of `*val` after
the call and the queue after the call. -/
def code_queue_get (q : Queue) (val : Int) : Bool × Int × Queue :=
  match q with
  | [] => (false, val, [])
  | front :: rest => (true, front, rest)

/-- Source: `code_queue_data_available`, `!Command_queue.empty()`. -/
def code_queue_data_available (q : Queue) : Bool :=
  !q.isEmpty

/-- Source: `code_queue_clear`, `while(!empty()) pop()`; structural on the
queue, one `pop` per element. -/
def code_queue_clear : Queue → Queue
  | [] => []
  | _ :: rest => code_queue_clear rest

/-- One call made by a client of the queue. -/
inductive QueueCall where
  | add (val : Int)
  | get
  deriving DecidableEq, Repr

/-- Runs a sequence of calls on the queue `q`. The second component lists, in
call order, the outcome of every `code_queue_get`: `some v` when it returned
true with `*val = v`, `none` when it returned false. -/
def run_calls (q : Queue) : List QueueCall → Queue × List (Option Int)
  | [] => (q, [])
  | QueueCall.add v :: cs => run_calls (code_queue_add q v) cs
  | QueueCall.get :: cs =>
    match code_queue_get q 0 with
    | (true, v, q1) => ((run_calls q1 cs).1, some v :: (run_calls q1 cs).2)
    | (false, _, q1) => ((run_calls q1 cs).1, none :: (run_calls q1 cs).2)

/-- The values passed to `code_queue_add`, in call order. -/
def added : List QueueCall → List Int
  | [] => []
  | QueueCall.add v :: cs => v :: added cs
  | QueueCall.get :: cs => added cs

/-- The values yielded by the gets that returned true, in call order. -/
def yielded (outcomes : List (Option Int)) : List Int :=
  outcomes.filterMap id

/-! ## Definitions: main.cpp, speed ramp and motor loop -/

/-- Store of an `int` into an `int8_t`: reduction modulo 256 into
`[-128, 127]`. -/
def toInt8 (x : Int) : Int :=
  (x + 128) % 256 - 128

/-- The values an `int8_t` can hold. -/
def isInt8 (x : Int) : Prop :=
  -128 ≤ x ∧ x ≤ 127

instance (x : Int) : Decidable (isInt8 x) := by
  unfold isInt8; infer_instance

/-- The speed range of one motor, `-100 .. +100`. -/
def inSpeedRange (x : Int) : Prop :=
  -100 ≤ x ∧ x ≤ 100

instance (x : Int) : Decidable (inSpeedRange x) := by
  unfold inSpeedRange; infer_instance

/-- The call `abs(x)` on an `int`: Arduino's macro `((x)>0?(x):-(x))`, which
agrees with `std::abs` on the differences of two `int8_t` values. -/
def abs_int (x : Int) : Int :=
  if x > 0 then x else -x

/-- Source: `speed_ramp`. The operands of `target_speed - actual_speed`,
`actual_speed + 5` and `actual_speed - 5` are promoted to `int`; the two
assignments of the ramp branch store an `int` into the `int8_t calc_speed`. -/
def speed_ramp (actual_speed target_speed : Int) : Int :=
  let calc_speed : Int := target_speed
  let calc_speed : Int :=
    if abs_int (target_speed - actual_speed) > 5 then
      if target_speed > actual_speed then toInt8 (actual_speed + 5)
      else toInt8 (actual_speed - 5)
    else calc_speed
  let calc_speed : Int := if calc_speed > 100 then 100 else calc_speed
  let calc_speed : Int := if calc_speed < -100 then -100 else calc_speed
  calc_speed

/-- The global `int8_t motor_speeds[4]`. -/
structure Motors where
  m0 : Int
  m1 : Int
  m2 : Int
  m3 : Int
  deriving DecidableEq, Repr

/-- The initial value `{0,0,0,0}` of `motor_speeds`. -/
def motors_zero : Motors :=
  ⟨0, 0, 0, 0⟩

/-- Every entry is an `int8_t` value. -/
def Motors.isInt8 (ms : Motors) : Prop :=
  RoverC.isInt8 ms.m0 ∧ RoverC.isInt8 ms.m1 ∧ RoverC.isInt8 ms.m2 ∧ RoverC.isInt8 ms.m3

/-- Every entry lies in `[-100, 100]`. -/
def Motors.inSpeedRange (ms : Motors) : Prop :=
  RoverC.inSpeedRange ms.m0 ∧ RoverC.inSpeedRange ms.m1 ∧
    RoverC.inSpeedRange ms.m2 ∧ RoverC.inSpeedRange ms.m3

instance (ms : Motors) : Decidable ms.isInt8 := by
  unfold Motors.isInt8; infer_instance

instance (ms : Motors) : Decidable ms.inSpeedRange := by
  unfold Motors.inSpeedRange; infer_instance

/-- Source: `rover_set_motors`. The result is the new `motor_speeds`, which is
also the four-byte payload written to the I2C bus. The targets `M1..M4` are
carried as a `Motors` value. -/
def rover_set_motors (motor_speeds : Motors) (M : Motors) : Motors :=
  { m0 := speed_ramp motor_speeds.m0 M.m0
    m1 := speed_ramp motor_speeds.m1 M.m1
    m2 := speed_ramp motor_speeds.m2 M.m2
    m3 := speed_ramp motor_speeds.m3 M.m3 }

/-- The loop condition of `move_rover`:
`motor_speeds[0] != M1 || motor_speeds[1] != M2 || ...`. -/
def speed_not_reached (motor_speeds : Motors) (M : Motors) : Bool :=
  motor_speeds.m0 != M.m0 || motor_speeds.m1 != M.m1 ||
    motor_speeds.m2 != M.m2 || motor_speeds.m3 != M.m3

/-- Source: the `while` loop of `move_rover`. Each unit of fuel pays for one
pass of the body; `none` means the condition still held when the fuel ran out.
The result is `motor_speeds` on exit and the payloads written by the calls of
`rover_set_motors`, first call first. -/
def move_rover_loop (M : Motors) : Nat → Motors → Option (Motors × List Motors)
  | 0, motor_speeds =>
    if speed_not_reached motor_speeds M then none else some (motor_speeds, [])
  | fuel + 1, motor_speeds =>
    if speed_not_reached motor_speeds M then
      match move_rover_loop M fuel (rover_set_motors motor_speeds M) with
      | none => none
      | some (final, writes) => some (final, rover_set_motors motor_speeds M :: writes)
    else some (motor_speeds, [])

/-- Source: `rover_stop`, the loop
`while(motor_speeds[0] != 0 || ...) rover_set_motors(0, 0, 0, 0)`. -/
def rover_stop : Nat → Motors → Option (Motors × List Motors)
  | 0, motor_speeds =>
    if motor_speeds.m0 != 0 || motor_speeds.m1 != 0 ||
        motor_speeds.m2 != 0 || motor_speeds.m3 != 0 then none
    else some (motor_speeds, [])
  | fuel + 1, motor_speeds =>
    if motor_speeds.m0 != 0 || motor_speeds.m1 != 0 ||
        motor_speeds.m2 != 0 || motor_speeds.m3 != 0 then
      match rover_stop fuel (rover_set_motors motor_speeds ⟨0, 0, 0, 0⟩) with
      | none => none
      | some (final, writes) =>
        some (final, rover_set_motors motor_speeds ⟨0, 0, 0, 0⟩ :: writes)
    else some (motor_speeds, [])

/-- The value of `motor_speeds` after a sequence of `rover_set_motors` calls,
one entry of `targets` per call. -/
def run_set_motors (motor_speeds : Motors) : List Motors → Motors
  | [] => motor_speeds
  | M :: rest => run_set_motors (rover_set_motors motor_speeds M) rest

/-- C `round` on a real argument: nearest integer, halves away from zero. -/
noncomputable def c_round (x : ℝ) : Int :=
  if 0 ≤ x then ⌊x + 1 / 2⌋ else ⌈x - 1 / 2⌉

/-- Source: the first part of `move_rover`, the four targets `M1..M4`, with
`sin` and `cos` taken over the reals. The cast `(int8_t)` keeps the low eight
bits of the rounded value. -/
noncomputable def move_rover_targets (angle : ℝ) (speed : Int) : Motors :=
  let speed : Int := if speed > 100 then 100 else speed
  let speed : Int := if speed < -100 then -100 else speed
  let vx : ℝ := Real.sin ((angle * Real.pi) / 180) * speed
  let vy : ℝ := Real.cos ((angle * Real.pi) / 180) * speed
  { m0 := toInt8 (c_round (vy + vx))
    m1 := toInt8 (c_round (vy - vx))
    m2 := toInt8 (c_round (vy - vx))
    m3 := toInt8 (c_round (vy + vx)) }

/-- Source: `move_rover`, targets followed by the ramp loop. -/
noncomputable def move_rover (fuel : Nat) (angle : ℝ) (speed : Int)
    (motor_speeds : Motors) : Option (Motors × List Motors) :=
  move_rover_loop (move_rover_targets angle speed) fuel motor_speeds

/-! ## Definitions: main.cpp, command intake (`case ps_recv_BT_codes`) -/

def ps_stop : Int := 0
def ps_wait_for_BT : Int := 10
def ps_recv_BT_codes : Int := 20
def ps_run_program : Int := 30

/-- The globals the state machine works on. `read_String` holds the character
codes of the Arduino `String`; `last_BT_cmd` is a `uint32_t`. -/
structure Control where
  process_state : Int
  read_String : List Nat
  queue : Queue
  last_BT_cmd : Nat
  motor_speeds : Motors
  deriving DecidableEq, Repr

/-- Arduino `isDigit(int c)`: the characters `0` to `9`. -/
def isDigit (data : Nat) : Bool :=
  decide (48 ≤ data) && decide (data ≤ 57)

/-- The number denoted by the leading decimal digits of a string, continuing
from `acc`. -/
def digits_value (acc : Nat) : List Nat → Nat
  | [] => acc
  | ch :: rest => if isDigit ch then digits_value (10 * acc + (ch - 48)) rest else acc

/-- The largest `long` of the target (32 bit). -/
def LONG_MAX : Int := 2147483647

/-- Arduino `String::toInt`, which is `atol` on the buffer, for a string that
starts with a digit or is empty (`read_String` only ever receives digits): the
value of the leading digits, `LONG_MAX` when that value does not fit in a
`long`, and `0` for the empty string. -/
def toInt (s : List Nat) : Int :=
  if (digits_value 0 s : Int) > LONG_MAX then LONG_MAX else (digits_value 0 s : Int)

/-- Source: the body of `while(SerialBT.available())` in `case
ps_recv_BT_codes`, for the byte `data` returned by `SerialBT.read()` and the
value `now` returned by `millis()` at the end of the pass. Character codes:
32 is the space, 42 is `*`. -/
def recv_byte (c : Control) (data : Nat) (now : Nat) : Control :=
  let read_String : List Nat :=
    if isDigit data then c.read_String ++ [data] else c.read_String
  let delimiter : Bool := data == 32 || (data == 42 && read_String != [])
  let value : Int := toInt read_String
  let queue : Queue :=
    if delimiter then
      if decide (value ≥ 0) && decide (value ≤ 360) then code_queue_add c.queue value
      else c.queue
    else c.queue
  let read_String : List Nat := if delimiter then [] else read_String
  let process_state : Int := if data == 42 then ps_run_program else c.process_state
  { c with
    process_state := process_state
    read_String := read_String
    queue := queue
    last_BT_cmd := now }

/-- Source: the loop `while(SerialBT.available())`, run over the bytes that
the source hands out during this evaluation, each paired with the `millis()`
value read at the end of its pass. -/
def recv_drain (c : Control) : List (Nat × Nat) → Control
  | [] => c
  | (data, now) :: rest => recv_drain (recv_byte c data now) rest

/-- Source: `case ps_recv_BT_codes`: the drain, then the timeout test
`millis() > last_BT_cmd+5000` in `uint32_t` arithmetic, `now` being the value
of `millis()` at the test. -/
def recv_BT_codes (c : Control) (input : List (Nat × Nat)) (now : Nat) : Control :=
  let c1 := recv_drain c input
  if now > (c1.last_BT_cmd + 5000) % 4294967296 then
    { c1 with process_state := ps_run_program }
  else c1

/-- The value `millis()` returns when `elapsed` ms have passed since it
returned `start`: the counter is an `unsigned long` of 32 bits and wraps. -/
def millis_after (start elapsed : Nat) : Nat :=
  (start + elapsed) % 4294967296

/-- The state with the clock field `last_BT_cmd` put to 0. -/
def Control.untimed (c : Control) : Control :=
  { c with last_BT_cmd := 0 }

/-- The bytes the intake reacts to: digits, the space and `*`. -/
def is_command_byte (data : Nat) : Bool :=
  isDigit data || data == 32 || data == 42

/-- The decimal representation of `v`, as character codes. -/
def decimal (v : Nat) : List Nat :=
  (Nat.toDigits 10 v).map Char.toNat

/-- The byte stream of the decimal representations of `vs`, separated by
single spaces; `last_space` adds a space after the last one; then `*`. -/
def command_stream (vs : List Nat) (last_space : Bool) : List Nat :=
  [32].intercalate (vs.map decimal) ++ (if last_space then [32] else []) ++ [42]

/-- The character codes of a string literal. -/
def bytes (s : String) : List Nat :=
  s.toList.map Char.toNat

/-- Pairs every byte with the same clock value. -/
def at_time (now : Nat) (stream : List Nat) : List (Nat × Nat) :=
  stream.map (fun data => (data, now))

/-! ## Definitions: main.cpp, the state machine of `loop` -/

/-- A call of the motor drive made by the state machine, with its arguments. -/
inductive RoverCall where
  | move_rover (angle : Int) (speed : Int)
  | rover_stop
  deriving DecidableEq, Repr

/-- Source: the block of Button A in `loop`: the square, the circle
`for(int n=0; n<=18; n++) code_queue_add(n*20)`, then
`process_state = ps_run_program`. -/
def demo_preload (c : Control) : Control :=
  let q : Queue := code_queue_add c.queue 0
  let q : Queue := code_queue_add q 0
  let q : Queue := code_queue_add q 90
  let q : Queue := code_queue_add q 90
  let q : Queue := code_queue_add q 180
  let q : Queue := code_queue_add q 180
  let q : Queue := code_queue_add q 270
  let q : Queue := code_queue_add q 270
  let q : Queue :=
    (List.range 19).foldl (fun (q : Queue) (n : Nat) => code_queue_add q ((n : Int) * 20)) q
  { c with queue := q, process_state := ps_run_program }

/-- Source: `case ps_stop`. -/
def stop_case (fuel : Nat) (c : Control) : Option (Control × List RoverCall) :=
  match rover_stop fuel c.motor_speeds with
  | none => none
  | some (motor_speeds, _) =>
    some ({ c with motor_speeds := motor_speeds, process_state := ps_wait_for_BT },
      [RoverCall.rover_stop])

/-- Source: `case ps_wait_for_BT`, `available` being the answer of
`SerialBT.available()` and `now` the value of `millis()`. -/
def wait_for_BT (c : Control) (available : Bool) (now : Nat) : Control :=
  if available then
    { c with
      read_String := []
      queue := code_queue_clear c.queue
      last_BT_cmd := now
      process_state := ps_recv_BT_codes }
  else c

/-- Source: the loop `while(code_queue_get(&value))` of `case ps_run_program`.
The first number is the fuel handed to every `move_rover`, the second pays for
the passes of this loop. The result is the queue, `value` and `motor_speeds`
on exit and the calls of `move_rover` made, first call first. -/
noncomputable def run_program_loop (fuel : Nat) :
    Nat → Queue → Int → Motors → Option (Queue × Int × Motors × List RoverCall)
  | 0, q, value, motor_speeds =>
    match code_queue_get q value with
    | (false, value1, q1) => some (q1, value1, motor_speeds, [])
    | (true, _, _) => none
  | passes + 1, q, value, motor_speeds =>
    match code_queue_get q value with
    | (false, value1, q1) => some (q1, value1, motor_speeds, [])
    | (true, value1, q1) =>
      match move_rover fuel (value1 : ℝ) 50 motor_speeds with
      | none => none
      | some (motor_speeds1, _) =>
        match run_program_loop fuel passes q1 value1 motor_speeds1 with
        | none => none
        | some (q2, value2, motor_speeds2, calls) =>
          some (q2, value2, motor_speeds2, RoverCall.move_rover value1 50 :: calls)

/-- Source: `case ps_run_program`: `int value = 0`, the loop, `rover_stop()`,
`process_state = ps_stop`. -/
noncomputable def run_program (fuel : Nat) (c : Control) :
    Option (Control × List RoverCall) :=
  match run_program_loop fuel fuel c.queue 0 c.motor_speeds with
  | none => none
  | some (q, _, motor_speeds, calls) =>
    match rover_stop fuel motor_speeds with
    | none => none
    | some (motor_speeds1, _) =>
      some ({ c with queue := q, motor_speeds := motor_speeds1, process_state := ps_stop },
        calls ++ [RoverCall.rover_stop])

/-- Source: `switch (process_state)` in `loop`, one evaluation. `pending` is
what the command source delivers during the evaluation, each byte with the
clock value at the end of its pass; `now` is the value of `millis()` read by
the case. The result is the new state, the bytes not read and the calls of the
motor drive; `none` when a loop runs out of fuel. -/
noncomputable def state_machine (fuel : Nat) (c : Control) (pending : List (Nat × Nat))
    (now : Nat) : Option (Control × List (Nat × Nat) × List RoverCall) :=
  if c.process_state = ps_stop then
    match stop_case fuel c with
    | none => none
    | some (c1, calls) => some (c1, pending, calls)
  else if c.process_state = ps_wait_for_BT then
    some (wait_for_BT c (!pending.isEmpty) now, pending, [])
  else if c.process_state = ps_recv_BT_codes then
    some (recv_BT_codes c pending now, [], [])
  else if c.process_state = ps_run_program then
    match run_program fuel c with
    | none => none
    | some (c1, calls) => some (c1, pending, calls)
  else some (c, pending, [])

/-- The globals at the start of the program. -/
def control_start : Control :=
  ⟨ps_stop, [], [], 0, motors_zero⟩

/-- The states the program can be in: the start, then any number of
state-machine evaluations, presses of Button A (demo) and presses of Button B
(`rover_stop`), on any input. -/
inductive Reachable : Control → Prop where
  | start : Reachable control_start
  | evaluation (fuel : Nat) (c : Control) (pending : List (Nat × Nat)) (now : Nat)
      (c1 : Control) (rest : List (Nat × Nat)) (calls : List RoverCall) :
      Reachable c → state_machine fuel c pending now = some (c1, rest, calls) →
      Reachable c1
  | button_A (c : Control) : Reachable c → Reachable (demo_preload c)
  | button_B (fuel : Nat) (c : Control) (motor_speeds : Motors) (writes : List Motors) :
      Reachable c → rover_stop fuel c.motor_speeds = some (motor_speeds, writes) →
      Reachable { c with motor_speeds := motor_speeds }

/-- Every command in the queue is an angle in `[0, 360]`. -/
def queue_in_range (q : Queue) : Prop :=
  ∀ v ∈ q, 0 ≤ v ∧ v ≤ 360

/-! ## Definitions: measures used in the statements -/

/-- The number `ceil(|target - current| / 5)`. -/
def ramp_steps (current target : Int) : Nat :=
  (Int.natAbs (target - current) + 4) / 5

/-- The number `max_i |M_i - motor_speeds[i]|`. -/
def max_distance (motor_speeds M : Motors) : Nat :=
  max (max (Int.natAbs (M.m0 - motor_speeds.m0)) (Int.natAbs (M.m1 - motor_speeds.m1)))
    (max (Int.natAbs (M.m2 - motor_speeds.m2)) (Int.natAbs (M.m3 - motor_speeds.m3)))

/-- The number `ceil(max_i |M_i - motor_speeds[i]| / 5)`. -/
def loop_steps (motor_speeds M : Motors) : Nat :=
  (max_distance motor_speeds M + 4) / 5

/-- The commands of `vs` that the intake accepts: those in `[0, 360]`. -/
def accepted (vs : List Nat) : List Int :=
  (vs.filter (fun v => decide (v ≤ 360))).map Int.ofNat

end RoverC

namespace RoverC

/-! ## The command queue -/

/-- Conservation law of the queue: what was in the queue plus what is added
equals what the successful gets yield followed by what is left. -/
theorem run_calls_conserves (cs : List QueueCall) :
    ∀ q : Queue, q ++ added cs = yielded (run_calls q cs).2 ++ (run_calls q cs).1 := by
  induction cs with
  | nil => intro q; simp [added, run_calls, yielded]
  | cons c cs ih =>
    intro q
    cases c with
    | add v =>
      have h := ih (code_queue_add q v)
      simp only [code_queue_add, List.append_assoc, List.singleton_append] at h
      simpa [added, run_calls, code_queue_add] using h
    | get =>
      cases q with
      | nil =>
        have h := ih []
        simpa [added, run_calls, code_queue_get, yielded] using h
      | cons front rest =>
        have h := ih rest
        simp only [added, run_calls, code_queue_get, yielded, List.filterMap_cons, id]
        simpa [yielded] using h

theorem run_calls_add (q : Queue) (v : Int) (cs : List QueueCall) :
    run_calls q (QueueCall.add v :: cs) = run_calls (q ++ [v]) cs := rfl

theorem run_calls_get_cons (front : Int) (rest : Queue) (cs : List QueueCall) :
    run_calls (front :: rest) (QueueCall.get :: cs)
      = ((run_calls rest cs).1, some front :: (run_calls rest cs).2) := rfl

theorem run_calls_get_nil (cs : List QueueCall) :
    run_calls [] (QueueCall.get :: cs)
      = ((run_calls [] cs).1, none :: (run_calls [] cs).2) := rfl

/-- After the adds `es`, the queue holds `es`. -/
theorem run_calls_adds (es : List Int) :
    ∀ (q : Queue) (cs : List QueueCall),
      run_calls q (es.map QueueCall.add ++ cs) = run_calls (q ++ es) cs := by
  induction es with
  | nil => intro q cs; simp
  | cons e es ih =>
    intro q cs
    rw [List.map_cons, List.cons_append, run_calls_add, ih]
    simp

/-- As many gets as the queue has elements yield them in order. -/
theorem run_calls_gets (q : Queue) :
    ∀ cs : List QueueCall,
      run_calls q (List.replicate q.length QueueCall.get ++ cs)
        = ((run_calls [] cs).1, q.map some ++ (run_calls [] cs).2) := by
  induction q with
  | nil => intro cs; simp
  | cons front rest ih =>
    intro cs
    rw [List.length_cons, List.replicate_succ, List.cons_append, run_calls_get_cons, ih]
    simp

/-- C1: FIFO order. From the empty queue, for every interleaved sequence of
code_queue_add and code_queue_get calls, the values yielded by the successful
gets are, position by position, the first values that were added; and after
the adds e1..en alone, n gets yield e1..en in that order and the next get
returns false. -/
theorem queue_fifo :
    (∀ cs : List QueueCall,
      yielded (run_calls [] cs).2
        = (added cs).take (yielded (run_calls [] cs).2).length) ∧
    (∀ es : List Int,
      run_calls [] (es.map QueueCall.add ++ List.replicate es.length QueueCall.get
          ++ [QueueCall.get])
        = ([], es.map some ++ [none])) := by
  constructor
  · intro cs
    have h := run_calls_conserves cs []
    simp only [List.nil_append] at h
    rw [h]
    simp
  · intro es
    rw [List.append_assoc, run_calls_adds, List.nil_append, run_calls_gets,
      run_calls_get_nil]
    simp [run_calls]

/-! ## The speed ramp -/

/-- The ramp on the speed range, as a case distinction without stores. -/
theorem speed_ramp_eq (current target : Int)
    (hc : inSpeedRange current) (ht : inSpeedRange target) :
    speed_ramp current target
      = if target - current > 5 then current + 5
        else if current - target > 5 then current - 5 else target := by
  unfold inSpeedRange at hc ht
  unfold speed_ramp abs_int toInt8
  simp only []
  split_ifs <;> omega

/-- The result of the ramp is clamped, whatever the arguments. -/
theorem speed_ramp_inSpeedRange (actual target : Int) :
    inSpeedRange (speed_ramp actual target) := by
  unfold inSpeedRange speed_ramp
  simp only []
  split_ifs <;> omega

/-- One ramp step takes 5 off the distance to an in-range target. -/
theorem speed_ramp_distance (current target : Int)
    (hc : inSpeedRange current) (ht : inSpeedRange target) :
    Int.natAbs (target - speed_ramp current target)
      = Int.natAbs (target - current) - 5 := by
  rw [speed_ramp_eq current target hc ht]
  split_ifs <;> omega

/-- One ramp step takes one off the number of steps still needed. -/
theorem ramp_steps_speed_ramp (current target : Int)
    (hc : inSpeedRange current) (ht : inSpeedRange target) :
    ramp_steps (speed_ramp current target) target = ramp_steps current target - 1 := by
  unfold ramp_steps
  rw [speed_ramp_distance current target hc ht]
  omega

/-- Enough ramp steps reach the target. -/
theorem iterate_speed_ramp (target : Int) (ht : inSpeedRange target) :
    ∀ (k : Nat) (current : Int), inSpeedRange current → ramp_steps current target ≤ k →
      Nat.iterate (fun x => speed_ramp x target) k current = target := by
  intro k
  induction k with
  | zero =>
    intro current _ hk
    unfold ramp_steps at hk
    simp only [Function.iterate_zero, id]
    omega
  | succ k ih =>
    intro current hc hk
    rw [Function.iterate_succ_apply]
    apply ih _ (speed_ramp_inSpeedRange current target)
    rw [ramp_steps_speed_ramp current target hc ht]
    omega

/-- C3: for current and target in [-100,100], speed_ramp is current+5 when
target-current > 5, current-5 when current-target > 5 and target otherwise;
so it is target whenever |target-current| <= 5. -/
theorem speed_ramp_spec (current target : Int)
    (hc : inSpeedRange current) (ht : inSpeedRange target) :
    (target - current > 5 → speed_ramp current target = current + 5) ∧
    (current - target > 5 → speed_ramp current target = current - 5) ∧
    (¬ target - current > 5 → ¬ current - target > 5 →
      speed_ramp current target = target) ∧
    (Int.natAbs (target - current) ≤ 5 → speed_ramp current target = target) := by
  rw [speed_ramp_eq current target hc ht]
  refine ⟨?_, ?_, ?_, ?_⟩ <;> intros <;> split_ifs <;> omega

theorem speed_ramp_spec_witness :
    (inSpeedRange (-20) ∧ inSpeedRange 100) ∧
    ((100 - (-20) > 5 → speed_ramp (-20) 100 = -20 + 5) ∧
    ((-20) - 100 > 5 → speed_ramp (-20) 100 = -20 - 5) ∧
    (¬ 100 - (-20) > 5 → ¬ (-20) - 100 > 5 → speed_ramp (-20) 100 = 100) ∧
    (Int.natAbs (100 - (-20)) ≤ 5 → speed_ramp (-20) 100 = 100)) :=
  ⟨by decide, speed_ramp_spec (-20) 100 (by decide) (by decide)⟩

/-- C4: for current and target in [-100,100], applying speed_ramp(., target)
ceil(|target-current|/5) times, or any larger number of times, to current
gives target; so target is reached after at most that many applications, and
target is a fixed point of the ramp. -/
theorem speed_ramp_converges (current target : Int)
    (hc : inSpeedRange current) (ht : inSpeedRange target) :
    (∀ k : Nat, (Int.natAbs (target - current) + 4) / 5 ≤ k →
      Nat.iterate (fun x => speed_ramp x target) k current = target) ∧
    (∃ k : Nat, k ≤ ramp_steps current target ∧
      Nat.iterate (fun x => speed_ramp x target) k current = target) ∧
    speed_ramp target target = target := by
  refine ⟨fun k hk => iterate_speed_ramp target ht k current hc hk, ?_, ?_⟩
  · exact ⟨ramp_steps current target, le_refl _,
      iterate_speed_ramp target ht _ current hc (le_refl _)⟩
  · rw [speed_ramp_eq target target ht ht]
    split_ifs <;> omega

theorem speed_ramp_converges_witness :
    (inSpeedRange (-100) ∧ inSpeedRange 93) ∧
    ((∀ k : Nat, (Int.natAbs (93 - (-100)) + 4) / 5 ≤ k →
      Nat.iterate (fun x => speed_ramp x 93) k (-100) = 93) ∧
    (∃ k : Nat, k ≤ ramp_steps (-100) 93 ∧
      Nat.iterate (fun x => speed_ramp x 93) k (-100) = 93) ∧
    speed_ramp 93 93 = 93) :=
  ⟨by decide, speed_ramp_converges (-100) 93 (by decide) (by decide)⟩

/-- C5: for every pair of int8 arguments speed_ramp returns a value in
[-100,100], and whenever the ramp branch is taken the int value
actual_speed + 5 (target above) or actual_speed - 5 (target not above) is an
int8 value, so the store into calc_speed does not change it. -/
theorem speed_ramp_int8 (actual_speed target_speed : Int)
    (ha : isInt8 actual_speed) (ht : isInt8 target_speed) :
    inSpeedRange (speed_ramp actual_speed target_speed) ∧
    (abs_int (target_speed - actual_speed) > 5 → target_speed > actual_speed →
      isInt8 (actual_speed + 5) ∧ toInt8 (actual_speed + 5) = actual_speed + 5) ∧
    (abs_int (target_speed - actual_speed) > 5 → ¬ target_speed > actual_speed →
      isInt8 (actual_speed - 5) ∧ toInt8 (actual_speed - 5) = actual_speed - 5) := by
  refine ⟨speed_ramp_inSpeedRange _ _, ?_, ?_⟩
  · unfold isInt8 at *
    unfold abs_int toInt8
    intro h1 h2
    split_ifs at h1 <;> omega
  · unfold isInt8 at *
    unfold abs_int toInt8
    intro h1 h2
    split_ifs at h1 <;> omega

theorem speed_ramp_int8_witness :
    (isInt8 127 ∧ isInt8 (-128)) ∧
    (inSpeedRange (speed_ramp 127 (-128)) ∧
    (abs_int (-128 - 127) > 5 → -128 > (127 : Int) →
      isInt8 (127 + 5) ∧ toInt8 (127 + 5) = 127 + 5) ∧
    (abs_int (-128 - 127) > 5 → ¬ -128 > (127 : Int) →
      isInt8 (127 - 5) ∧ toInt8 (127 - 5) = 127 - 5)) :=
  ⟨by decide, speed_ramp_int8 127 (-128) (by decide) (by decide)⟩

/-! ## rover_set_motors and the ramp loops -/

/-- Every call of rover_set_motors leaves a vector in the speed range. -/
theorem rover_set_motors_inSpeedRange (motor_speeds M : Motors) :
    (rover_set_motors motor_speeds M).inSpeedRange :=
  ⟨speed_ramp_inSpeedRange _ _, speed_ramp_inSpeedRange _ _,
    speed_ramp_inSpeedRange _ _, speed_ramp_inSpeedRange _ _⟩

/-- A sequence of calls keeps the vector in the speed range. -/
theorem run_set_motors_inSpeedRange (targets : List Motors) :
    ∀ motor_speeds : Motors, motor_speeds.inSpeedRange →
      (run_set_motors motor_speeds targets).inSpeedRange := by
  induction targets with
  | nil => intro ms h; exact h
  | cons M rest ih =>
    intro ms _
    exact ih _ (rover_set_motors_inSpeedRange ms M)

/-- What the ramp loop returns and writes stays in the speed range. -/
theorem move_rover_loop_inSpeedRange (M : Motors) :
    ∀ (fuel : Nat) (motor_speeds final : Motors) (writes : List Motors),
      motor_speeds.inSpeedRange →
      move_rover_loop M fuel motor_speeds = some (final, writes) →
      final.inSpeedRange ∧ ∀ w ∈ writes, w.inSpeedRange := by
  intro fuel
  induction fuel with
  | zero =>
    intro ms final writes hms h
    unfold move_rover_loop at h
    split_ifs at h
    simp only [Option.some.injEq, Prod.mk.injEq] at h
    rw [← h.1, ← h.2]
    exact ⟨hms, by simp⟩
  | succ fuel ih =>
    intro ms final writes hms h
    unfold move_rover_loop at h
    split_ifs at h
    · cases hr : move_rover_loop M fuel (rover_set_motors ms M) with
      | none => rw [hr] at h; simp at h
      | some r =>
        obtain ⟨final1, writes1⟩ := r
        rw [hr] at h
        simp only [Option.some.injEq, Prod.mk.injEq] at h
        have h1 := ih _ _ _ (rover_set_motors_inSpeedRange ms M) hr
        rw [← h.1, ← h.2]
        refine ⟨h1.1, ?_⟩
        intro w hw
        rcases List.mem_cons.mp hw with hw | hw
        · rw [hw]; exact rover_set_motors_inSpeedRange ms M
        · exact h1.2 w hw
    · simp only [Option.some.injEq, Prod.mk.injEq] at h
      rw [← h.1, ← h.2]
      exact ⟨hms, by simp⟩

/-- The loop of rover_stop is the loop of move_rover with all targets 0. -/
theorem rover_stop_eq_move_rover_loop :
    ∀ (fuel : Nat) (motor_speeds : Motors),
      rover_stop fuel motor_speeds = move_rover_loop ⟨0, 0, 0, 0⟩ fuel motor_speeds := by
  intro fuel
  induction fuel with
  | zero => intro ms; rfl
  | succ fuel ih =>
    intro ms
    unfold rover_stop move_rover_loop
    rw [ih]
    rfl

/-- C6: starting from motor_speeds = (0,0,0,0), after any finite sequence of
rover_set_motors calls with int8 targets every entry of motor_speeds lies in
[-100,100]; and whatever a ramp loop (move_rover, rover_stop) started there
after such a sequence returns or writes on the way lies in [-100,100] too. -/
theorem motor_speeds_invariant (targets : List Motors)
    (_ht : ∀ M ∈ targets, M.isInt8) :
    (run_set_motors motors_zero targets).inSpeedRange ∧
    (∀ (M : Motors) (fuel : Nat) (final : Motors) (writes : List Motors), M.isInt8 →
      move_rover_loop M fuel (run_set_motors motors_zero targets) = some (final, writes) →
      final.inSpeedRange ∧ ∀ w ∈ writes, w.inSpeedRange) ∧
    (∀ (fuel : Nat) (final : Motors) (writes : List Motors),
      rover_stop fuel (run_set_motors motors_zero targets) = some (final, writes) →
      final.inSpeedRange ∧ ∀ w ∈ writes, w.inSpeedRange) := by
  have h0 : (run_set_motors motors_zero targets).inSpeedRange :=
    run_set_motors_inSpeedRange targets motors_zero (by decide)
  refine ⟨h0, ?_, ?_⟩
  · intro M fuel final writes _ h
    exact move_rover_loop_inSpeedRange M fuel _ final writes h0 h
  · intro fuel final writes h
    rw [rover_stop_eq_move_rover_loop] at h
    exact move_rover_loop_inSpeedRange _ fuel _ final writes h0 h

theorem motor_speeds_invariant_witness :
    (∀ M ∈ [(⟨127, -128, 50, -115⟩ : Motors), ⟨-128, 127, 0, 3⟩], M.isInt8) ∧
    (run_set_motors motors_zero [⟨127, -128, 50, -115⟩, ⟨-128, 127, 0, 3⟩]).inSpeedRange :=
  ⟨by decide,
    (motor_speeds_invariant [⟨127, -128, 50, -115⟩, ⟨-128, 127, 0, 3⟩] (by decide)).1⟩

/-- The ramp moves an in-range speed by at most 5 and not away from an int8
target. -/
theorem speed_ramp_step_bound (current target : Int)
    (hc : inSpeedRange current) (ht : isInt8 target) :
    Int.natAbs (speed_ramp current target - current) ≤ 5 ∧
    Int.natAbs (target - speed_ramp current target) ≤ Int.natAbs (target - current) := by
  unfold inSpeedRange at hc
  unfold isInt8 at ht
  unfold speed_ramp abs_int toInt8
  simp only []
  split_ifs <;> omega

/-- C7: acceleration limit. For a motor vector in [-100,100]^4 and int8
targets, one call of rover_set_motors changes each entry of motor_speeds by at
most 5 in absolute value and does not increase the distance of any entry to
its target. -/
theorem rover_set_motors_acceleration (motor_speeds M : Motors)
    (hms : motor_speeds.inSpeedRange) (hM : M.isInt8) :
    (Int.natAbs ((rover_set_motors motor_speeds M).m0 - motor_speeds.m0) ≤ 5 ∧
      Int.natAbs (M.m0 - (rover_set_motors motor_speeds M).m0)
        ≤ Int.natAbs (M.m0 - motor_speeds.m0)) ∧
    (Int.natAbs ((rover_set_motors motor_speeds M).m1 - motor_speeds.m1) ≤ 5 ∧
      Int.natAbs (M.m1 - (rover_set_motors motor_speeds M).m1)
        ≤ Int.natAbs (M.m1 - motor_speeds.m1)) ∧
    (Int.natAbs ((rover_set_motors motor_speeds M).m2 - motor_speeds.m2) ≤ 5 ∧
      Int.natAbs (M.m2 - (rover_set_motors motor_speeds M).m2)
        ≤ Int.natAbs (M.m2 - motor_speeds.m2)) ∧
    (Int.natAbs ((rover_set_motors motor_speeds M).m3 - motor_speeds.m3) ≤ 5 ∧
      Int.natAbs (M.m3 - (rover_set_motors motor_speeds M).m3)
        ≤ Int.natAbs (M.m3 - motor_speeds.m3)) :=
  ⟨speed_ramp_step_bound _ _ hms.1 hM.1, speed_ramp_step_bound _ _ hms.2.1 hM.2.1,
    speed_ramp_step_bound _ _ hms.2.2.1 hM.2.2.1,
    speed_ramp_step_bound _ _ hms.2.2.2 hM.2.2.2⟩

theorem rover_set_motors_acceleration_witness :
    ((⟨100, -100, 98, 0⟩ : Motors).inSpeedRange ∧ (⟨127, -128, 101, 3⟩ : Motors).isInt8) ∧
    rover_set_motors ⟨100, -100, 98, 0⟩ ⟨127, -128, 101, 3⟩ = ⟨100, -100, 100, 3⟩ ∧
    Int.natAbs ((rover_set_motors ⟨100, -100, 98, 0⟩ ⟨127, -128, 101, 3⟩).m2 - 98) ≤ 5 :=
  ⟨by decide, by decide,
    (rover_set_motors_acceleration ⟨100, -100, 98, 0⟩ ⟨127, -128, 101, 3⟩
      (by decide) (by decide)).2.2.1.1⟩

/-- The loop condition is false exactly when the vector equals the targets. -/
theorem speed_not_reached_eq_false (motor_speeds M : Motors) :
    speed_not_reached motor_speeds M = false ↔ motor_speeds = M := by
  cases motor_speeds
  cases M
  simp [speed_not_reached, and_assoc]

/-- No pass of the loop is needed exactly when the vector equals the targets. -/
theorem loop_steps_eq_zero (motor_speeds M : Motors) :
    loop_steps motor_speeds M = 0 ↔ motor_speeds = M := by
  cases motor_speeds
  cases M
  simp only [loop_steps, max_distance, Motors.mk.injEq]
  omega

/-- One call of rover_set_motors takes one off the number of passes needed. -/
theorem loop_steps_rover_set_motors (motor_speeds M : Motors)
    (hms : motor_speeds.inSpeedRange) (hM : M.inSpeedRange) :
    loop_steps (rover_set_motors motor_speeds M) M = loop_steps motor_speeds M - 1 := by
  obtain ⟨c0, c1, c2, c3⟩ := hms
  obtain ⟨t0, t1, t2, t3⟩ := hM
  simp only [loop_steps, max_distance, rover_set_motors]
  rw [speed_ramp_distance motor_speeds.m0 M.m0 c0 t0,
    speed_ramp_distance motor_speeds.m1 M.m1 c1 t1,
    speed_ramp_distance motor_speeds.m2 M.m2 c2 t2,
    speed_ramp_distance motor_speeds.m3 M.m3 c3 t3]
  generalize Int.natAbs (M.m0 - motor_speeds.m0) = d0
  generalize Int.natAbs (M.m1 - motor_speeds.m1) = d1
  generalize Int.natAbs (M.m2 - motor_speeds.m2) = d2
  generalize Int.natAbs (M.m3 - motor_speeds.m3) = d3
  omega

/-- With targets in the speed range the ramp loop ends: given fuel for
ceil(max_i |M_i - motor_speeds[i]| / 5) passes it returns the targets after
exactly that many calls of rover_set_motors. -/
theorem move_rover_loop_terminates (M : Motors) (hM : M.inSpeedRange) :
    ∀ (fuel : Nat) (motor_speeds : Motors), motor_speeds.inSpeedRange →
      loop_steps motor_speeds M ≤ fuel →
      ∃ writes : List Motors,
        move_rover_loop M fuel motor_speeds = some (M, writes) ∧
        writes.length = loop_steps motor_speeds M := by
  intro fuel
  induction fuel with
  | zero =>
    intro ms _ hfuel
    have hz : loop_steps ms M = 0 := by omega
    have he : ms = M := (loop_steps_eq_zero ms M).mp hz
    refine ⟨[], ?_, by simp [hz]⟩
    unfold move_rover_loop
    rw [(speed_not_reached_eq_false ms M).mpr he, he]
    simp
  | succ fuel ih =>
    intro ms hms hfuel
    cases hc : speed_not_reached ms M with
    | false =>
      have he : ms = M := (speed_not_reached_eq_false ms M).mp hc
      refine ⟨[], ?_, by simp [(loop_steps_eq_zero ms M).mpr he]⟩
      unfold move_rover_loop
      rw [hc, he]
      simp
    | true =>
      have hne : loop_steps ms M ≠ 0 := by
        intro hz
        have he := (loop_steps_eq_zero ms M).mp hz
        rw [(speed_not_reached_eq_false ms M).mpr he] at hc
        exact Bool.noConfusion hc
      have hstep := loop_steps_rover_set_motors ms M hms hM
      obtain ⟨writes, hw, hlen⟩ :=
        ih (rover_set_motors ms M) (rover_set_motors_inSpeedRange ms M) (by omega)
      refine ⟨rover_set_motors ms M :: writes, ?_, ?_⟩
      · unfold move_rover_loop
        rw [hc, hw]
        simp
      · rw [List.length_cons, hlen, hstep]
        omega

/-- With a target outside the speed range the ramp loop never ends: from a
vector in the speed range the condition holds after every number of passes. -/
theorem move_rover_loop_never_ends (M : Motors) (hM : ¬ M.inSpeedRange) :
    ∀ (fuel : Nat) (motor_speeds : Motors), motor_speeds.inSpeedRange →
      move_rover_loop M fuel motor_speeds = none := by
  have hcond : ∀ ms : Motors, ms.inSpeedRange → speed_not_reached ms M = true := by
    intro ms hms
    cases hc : speed_not_reached ms M with
    | true => rfl
    | false =>
      have he := (speed_not_reached_eq_false ms M).mp hc
      rw [he] at hms
      exact absurd hms hM
  intro fuel
  induction fuel with
  | zero =>
    intro ms hms
    unfold move_rover_loop
    rw [hcond ms hms]
    simp
  | succ fuel ih =>
    intro ms hms
    unfold move_rover_loop
    rw [hcond ms hms, ih _ (rover_set_motors_inSpeedRange ms M)]
    simp

/-- The distance of a vector in the speed range to (0,0,0,0) needs at most
20 passes. -/
theorem loop_steps_zero_le (motor_speeds : Motors) (hms : motor_speeds.inSpeedRange) :
    loop_steps motor_speeds ⟨0, 0, 0, 0⟩ ≤ 20 := by
  obtain ⟨h0, h1, h2, h3⟩ := hms
  unfold inSpeedRange at h0 h1 h2 h3
  simp only [loop_steps, max_distance]
  omega

/-- C8: for a motor vector in [-100,100]^4, rover_stop (given fuel for 20
passes or more) returns with motor_speeds = (0,0,0,0) after at most 20 calls
of rover_set_motors(0,0,0,0); from the all-zero vector it returns at once
without any call; and with any fuel and any vector it is the move_rover loop
run with targets (0,0,0,0). -/
theorem rover_stop_spec (motor_speeds : Motors) (hms : motor_speeds.inSpeedRange) :
    (∀ fuel : Nat, 20 ≤ fuel →
      ∃ writes : List Motors,
        rover_stop fuel motor_speeds = some (motors_zero, writes) ∧
        writes.length ≤ 20 ∧
        writes.length = loop_steps motor_speeds motors_zero) ∧
    (∀ fuel : Nat, rover_stop fuel motors_zero = some (motors_zero, [])) ∧
    (∀ (fuel : Nat) (ms : Motors),
      rover_stop fuel ms = move_rover_loop motors_zero fuel ms) := by
  have hb := loop_steps_zero_le motor_speeds hms
  refine ⟨?_, ?_, ?_⟩
  · intro fuel hfuel
    obtain ⟨writes, hw, hlen⟩ :=
      move_rover_loop_terminates ⟨0, 0, 0, 0⟩ (by decide) fuel motor_speeds hms
        (by omega)
    refine ⟨writes, ?_, by omega, hlen⟩
    rw [rover_stop_eq_move_rover_loop]
    exact hw
  · intro fuel
    cases fuel <;> rfl
  · intro fuel ms
    exact rover_stop_eq_move_rover_loop fuel ms

theorem rover_stop_spec_witness :
    (⟨100, -100, 37, -4⟩ : Motors).inSpeedRange ∧
    (∃ writes : List Motors,
      rover_stop 20 ⟨100, -100, 37, -4⟩ = some (motors_zero, writes) ∧
      writes.length ≤ 20 ∧
      writes.length = loop_steps ⟨100, -100, 37, -4⟩ motors_zero) :=
  ⟨by decide, (rover_stop_spec ⟨100, -100, 37, -4⟩ (by decide)).1 20 (le_refl _)⟩

/-! ## move_rover at angle 45 and speed 100 -/

/-- The rounding of a non-negative real, from bounds on it. -/
theorem c_round_eq_of_bounds (x : ℝ) (z : Int) (h0 : 0 ≤ x)
    (hlo : (z : ℝ) - 1 / 2 ≤ x) (hhi : x < (z : ℝ) + 1 / 2) : c_round x = z := by
  unfold c_round
  rw [if_pos h0, Int.floor_eq_iff]
  constructor <;> linarith

/-- At angle 45 and speed 100 the sum `vy + vx` is `100 * sqrt 2`, which
rounds to 141, and the difference `vy - vx` is 0; stored in an `int8_t`, 141
becomes -115. -/
theorem move_rover_targets_45_100 :
    move_rover_targets 45 100 = ⟨-115, 0, 0, -115⟩ := by
  have hangle : ((45 : ℝ) * Real.pi) / 180 = Real.pi / 4 := by ring
  have hs : (0 : ℝ) ≤ Real.sqrt 2 := Real.sqrt_nonneg 2
  have hsq : Real.sqrt 2 * Real.sqrt 2 = 2 := Real.mul_self_sqrt (by norm_num)
  have hsum : c_round (Real.sqrt 2 / 2 * 100 + Real.sqrt 2 / 2 * 100) = 141 := by
    apply c_round_eq_of_bounds
    · nlinarith
    · push_cast; nlinarith
    · push_cast; nlinarith
  have hdiff : c_round 0 = 0 := by
    apply c_round_eq_of_bounds <;> norm_num
  unfold move_rover_targets
  simp only [hangle, Real.sin_pi_div_four, Real.cos_pi_div_four]
  norm_num
  rw [hsum, hdiff]
  decide

/-- C2 at the input angle 45, speed 100, motor_speeds (0,0,0,0): the targets
computed are M1 = M4 = (int8_t)141 = -115 and M2 = M3 = 0, and the loop of
move_rover does not end: with every amount of fuel the loop condition still
holds when the fuel is used up, since speed_ramp keeps motor_speeds[0] in
[-100,100]. -/
theorem move_rover_45_100_never_returns :
    move_rover_targets 45 100 = ⟨-115, 0, 0, -115⟩ ∧
    (∀ fuel : Nat, move_rover fuel 45 100 motors_zero = none) ∧
    (∀ n : Nat, speed_not_reached
      (run_set_motors motors_zero (List.replicate n ⟨-115, 0, 0, -115⟩))
      ⟨-115, 0, 0, -115⟩ = true) := by
  refine ⟨move_rover_targets_45_100, ?_, ?_⟩
  · intro fuel
    unfold move_rover
    rw [move_rover_targets_45_100]
    exact move_rover_loop_never_ends _ (by decide) fuel motors_zero (by decide)
  · intro n
    have hr := run_set_motors_inSpeedRange (List.replicate n ⟨-115, 0, 0, -115⟩)
      motors_zero (by decide)
    cases hc : speed_not_reached
        (run_set_motors motors_zero (List.replicate n ⟨-115, 0, 0, -115⟩))
        ⟨-115, 0, 0, -115⟩ with
    | true => rfl
    | false =>
      rw [(speed_not_reached_eq_false _ _).mp hc] at hr
      exact absurd hr (by decide)

/-! ## Command intake: decimal tokens -/

/-- The character of a decimal digit has code 48 + digit. -/
theorem digitChar_toNat (d : Nat) (hd : d < 10) : (Nat.digitChar d).toNat = 48 + d := by
  interval_cases d <;> rfl

/-- Appending one digit to a string of digits. -/
theorem digits_value_snoc (d : Nat) (hd : isDigit d = true) :
    ∀ (l : List Nat) (acc : Nat), (∀ ch ∈ l, isDigit ch = true) →
      digits_value acc (l ++ [d]) = 10 * digits_value acc l + (d - 48) := by
  intro l
  induction l with
  | nil => intro acc _; simp [digits_value, hd]
  | cons ch rest ih =>
    intro acc hl
    have hch : isDigit ch = true := hl ch (List.mem_cons_self _ _)
    have hrest : ∀ x ∈ rest, isDigit x = true :=
      fun x hx => hl x (List.mem_cons_of_mem _ hx)
    simp only [List.cons_append, digits_value, hch, if_true]
    exact ih _ hrest

/-- The digits produced by the conversion loop of `Nat.toDigits`. -/
theorem toDigitsCore_spec :
    ∀ (fuel n : Nat) (ds : List Char), n < fuel →
      ∃ l : List Char, Nat.toDigitsCore 10 fuel n ds = l ++ ds ∧ l ≠ [] ∧
        (∀ ch ∈ l.map Char.toNat, isDigit ch = true) ∧
        digits_value 0 (l.map Char.toNat) = n := by
  intro fuel
  induction fuel with
  | zero => intro n ds h; omega
  | succ fuel ih =>
    intro n ds hn
    have hmod : n % 10 < 10 := Nat.mod_lt _ (by decide)
    have hcode := digitChar_toNat (n % 10) hmod
    have hdig48 : isDigit (48 + n % 10) = true := by
      simp only [isDigit, Bool.and_eq_true, decide_eq_true_eq]
      omega
    have hdig : isDigit (Nat.digitChar (n % 10)).toNat = true := by
      rw [hcode]; exact hdig48
    by_cases hq : n / 10 = 0
    · refine ⟨[Nat.digitChar (n % 10)], ?_, by simp, ?_, ?_⟩
      · simp [Nat.toDigitsCore, hq]
      · intro ch hch
        simp only [List.map_cons, List.map_nil, List.mem_singleton] at hch
        rw [hch]; exact hdig
      · simp only [List.map_cons, List.map_nil, digits_value, hcode, hdig48, if_true]
        omega
    · obtain ⟨l, hl, _, hall, hval⟩ :=
        ih (n / 10) (Nat.digitChar (n % 10) :: ds) (by omega)
      refine ⟨l ++ [Nat.digitChar (n % 10)], ?_, by simp, ?_, ?_⟩
      · simp [Nat.toDigitsCore, hq, hl]
      · intro ch hch
        simp only [List.map_append, List.map_cons, List.map_nil, List.mem_append,
          List.mem_singleton] at hch
        rcases hch with hch | hch
        · exact hall ch hch
        · rw [hch]; exact hdig
      · rw [List.map_append, List.map_cons, List.map_nil,
          digits_value_snoc _ hdig _ _ hall, hval, hcode]
        omega

/-- The decimal representation is a non-empty string of digits. -/
theorem decimal_digits (v : Nat) :
    decimal v ≠ [] ∧ ∀ ch ∈ decimal v, isDigit ch = true := by
  obtain ⟨l, hl, hne, hall, _⟩ := toDigitsCore_spec (v + 1) v [] (by omega)
  unfold decimal Nat.toDigits
  rw [hl, List.append_nil]
  exact ⟨by simpa using hne, hall⟩

/-- The value read back from the decimal representation. -/
theorem digits_value_decimal (v : Nat) : digits_value 0 (decimal v) = v := by
  obtain ⟨l, hl, _, _, hval⟩ := toDigitsCore_spec (v + 1) v [] (by omega)
  unfold decimal Nat.toDigits
  rw [hl, List.append_nil]
  exact hval

/-- The conversion `toInt` on the decimal representation of an `int`. -/
theorem toInt_decimal (v : Nat) (hv : (v : Int) ≤ 2147483647) : toInt (decimal v) = v := by
  unfold toInt LONG_MAX
  rw [digits_value_decimal]
  split_ifs <;> omega

/-! ## Command intake: the drain loop -/

/-- The clock values do not influence the other fields: one pass. -/
theorem recv_byte_untimed (c : Control) (data now : Nat) :
    (recv_byte c data now).untimed = recv_byte c.untimed data 0 := rfl

/-- The clock values do not influence the other fields: the whole drain. -/
theorem recv_drain_untimed :
    ∀ (input : List (Nat × Nat)) (c : Control),
      (recv_drain c input).untimed
        = recv_drain c.untimed (at_time 0 (input.map Prod.fst)) := by
  intro input
  induction input with
  | nil => intro c; rfl
  | cons p rest ih =>
    intro c
    obtain ⟨data, now⟩ := p
    simp only [recv_drain, List.map_cons, at_time]
    rw [ih, recv_byte_untimed]
    rfl

/-- Draining two streams one after the other. -/
theorem recv_drain_append :
    ∀ (a b : List (Nat × Nat)) (c : Control),
      recv_drain c (a ++ b) = recv_drain (recv_drain c a) b := by
  intro a
  induction a with
  | nil => intro b c; rfl
  | cons p rest ih =>
    intro b c
    obtain ⟨data, now⟩ := p
    simp only [List.cons_append, recv_drain]
    exact ih b _

theorem at_time_append (now : Nat) (a b : List Nat) :
    at_time now (a ++ b) = at_time now a ++ at_time now b := by
  simp [at_time]

/-- A digit is appended to read_String and nothing else happens. -/
theorem recv_byte_digit (ps : Int) (rs : List Nat) (q : Queue) (ms : Motors) (d : Nat)
    (hd : isDigit d = true) :
    recv_byte ⟨ps, rs, q, 0, ms⟩ d 0 = ⟨ps, rs ++ [d], q, 0, ms⟩ := by
  have hb : 48 ≤ d ∧ d ≤ 57 := by
    simpa only [isDigit, Bool.and_eq_true, decide_eq_true_eq] using hd
  have h32 : (d == 32) = false := by
    rw [beq_eq_false_iff_ne]; omega
  have h42 : (d == 42) = false := by
    rw [beq_eq_false_iff_ne]; omega
  simp [recv_byte, hd, h32, h42]

/-- A run of digits is appended to read_String. -/
theorem recv_drain_digits (ps : Int) (q : Queue) (ms : Motors) :
    ∀ (ds rs : List Nat), (∀ d ∈ ds, isDigit d = true) →
      recv_drain ⟨ps, rs, q, 0, ms⟩ (at_time 0 ds) = ⟨ps, rs ++ ds, q, 0, ms⟩ := by
  intro ds
  induction ds with
  | nil => intro rs _; simp [at_time, recv_drain]
  | cons d rest ih =>
    intro rs hds
    have hd : isDigit d = true := hds d (List.mem_cons_self _ _)
    have hrest : ∀ x ∈ rest, isDigit x = true :=
      fun x hx => hds x (List.mem_cons_of_mem _ hx)
    have h := ih (rs ++ [d]) hrest
    simp only [at_time] at h
    simp only [at_time, List.map_cons, recv_drain]
    rw [recv_byte_digit ps rs q ms d hd, h]
    simp

/-- The space: the pending token is converted, enqueued when in [0,360], and
cleared. -/
theorem recv_byte_space (ps : Int) (rs : List Nat) (q : Queue) (ms : Motors) :
    recv_byte ⟨ps, rs, q, 0, ms⟩ 32 0
      = ⟨ps, [],
          if decide (toInt rs ≥ 0) && decide (toInt rs ≤ 360) then q ++ [toInt rs] else q,
          0, ms⟩ := by
  simp [recv_byte, isDigit, code_queue_add]

/-- The terminator with a pending token. -/
theorem recv_byte_star (ps : Int) (rs : List Nat) (q : Queue) (ms : Motors)
    (hrs : rs ≠ []) :
    recv_byte ⟨ps, rs, q, 0, ms⟩ 42 0
      = ⟨ps_run_program, [],
          if decide (toInt rs ≥ 0) && decide (toInt rs ≤ 360) then q ++ [toInt rs] else q,
          0, ms⟩ := by
  simp [recv_byte, isDigit, code_queue_add, hrs]

/-- The terminator without a pending token. -/
theorem recv_byte_star_empty (ps : Int) (q : Queue) (ms : Motors) :
    recv_byte ⟨ps, [], q, 0, ms⟩ 42 0 = ⟨ps_run_program, [], q, 0, ms⟩ := by
  simp [recv_byte, isDigit]

/-- What the conversion of a decimal token enqueues. -/
theorem enqueue_decimal (q : Queue) (v : Nat) (hv : (v : Int) ≤ 2147483647) :
    (if decide (toInt (decimal v) ≥ 0) && decide (toInt (decimal v) ≤ 360)
      then q ++ [toInt (decimal v)] else q) = q ++ accepted [v] := by
  rw [toInt_decimal v hv]
  by_cases h : v ≤ 360
  · have h1 : (v : Int) ≤ 360 := by omega
    simp [accepted, h, h1]
  · have h1 : ¬ (v : Int) ≤ 360 := by omega
    simp [accepted, h, h1]

theorem accepted_cons (v : Nat) (vs : List Nat) :
    accepted (v :: vs) = accepted [v] ++ accepted vs := by
  by_cases h : v ≤ 360 <;> simp [accepted, List.filter_cons, h]

/-- A decimal token followed by a space. -/
theorem recv_drain_token_space (ps : Int) (q : Queue) (ms : Motors) (v : Nat)
    (hv : (v : Int) ≤ 2147483647) :
    recv_drain ⟨ps, [], q, 0, ms⟩ (at_time 0 (decimal v ++ [32]))
      = ⟨ps, [], q ++ accepted [v], 0, ms⟩ := by
  rw [at_time_append, recv_drain_append,
    recv_drain_digits ps q ms (decimal v) [] (decimal_digits v).2, List.nil_append]
  simp only [at_time, List.map_cons, List.map_nil, recv_drain]
  rw [recv_byte_space, enqueue_decimal q v hv]

/-- A decimal token followed by the terminator. -/
theorem recv_drain_token_star (ps : Int) (q : Queue) (ms : Motors) (v : Nat)
    (hv : (v : Int) ≤ 2147483647) :
    recv_drain ⟨ps, [], q, 0, ms⟩ (at_time 0 (decimal v ++ [42]))
      = ⟨ps_run_program, [], q ++ accepted [v], 0, ms⟩ := by
  rw [at_time_append, recv_drain_append,
    recv_drain_digits ps q ms (decimal v) [] (decimal_digits v).2, List.nil_append]
  simp only [at_time, List.map_cons, List.map_nil, recv_drain]
  rw [recv_byte_star ps _ q ms (decimal_digits v).1, enqueue_decimal q v hv]

/-- The stream of a single command. -/
theorem command_stream_single (v : Nat) (last_space : Bool) :
    command_stream [v] last_space
      = if last_space then decimal v ++ [32] ++ [42] else decimal v ++ [42] := by
  cases last_space <;> simp [command_stream, List.intercalate]

/-- The stream of two or more commands starts with the first token and a
space. -/
theorem command_stream_cons (v w : Nat) (ws : List Nat) (last_space : Bool) :
    command_stream (v :: w :: ws) last_space
      = (decimal v ++ [32]) ++ command_stream (w :: ws) last_space := by
  simp [command_stream, List.intercalate, List.intersperse]

/-- Draining a whole command stream, clock values put aside. -/
theorem recv_drain_command_stream (ps : Int) (ms : Motors) (last_space : Bool) :
    ∀ (vs : List Nat) (q : Queue), vs ≠ [] → (∀ v ∈ vs, (v : Int) ≤ 2147483647) →
      recv_drain ⟨ps, [], q, 0, ms⟩ (at_time 0 (command_stream vs last_space))
        = ⟨ps_run_program, [], q ++ accepted vs, 0, ms⟩ := by
  intro vs
  induction vs with
  | nil => intro q h; exact absurd rfl h
  | cons v rest ih =>
    intro q _ hvs
    have hv : (v : Int) ≤ 2147483647 := hvs v (List.mem_cons_self _ _)
    cases rest with
    | nil =>
      rw [command_stream_single]
      cases last_space with
      | false => exact recv_drain_token_star ps q ms v hv
      | true =>
        simp only [if_true]
        rw [at_time_append, recv_drain_append, recv_drain_token_space ps q ms v hv]
        simp only [at_time, List.map_cons, List.map_nil, recv_drain]
        rw [recv_byte_star_empty]
    | cons w ws =>
      have hrest : ∀ x ∈ w :: ws, (x : Int) ≤ 2147483647 :=
        fun x hx => hvs x (List.mem_cons_of_mem _ hx)
      rw [command_stream_cons, at_time_append, recv_drain_append,
        recv_drain_token_space ps q ms v hv, ih _ (List.cons_ne_nil _ _) hrest,
        accepted_cons v (w :: ws), List.append_assoc]

/-- C9: with read_String empty, for every non-empty list of non-negative
integers that fit in int, draining the byte stream of their decimal
representations, separated by single spaces and ended by the terminator (with
or without a space before it), appends to the queue exactly the values in
[0,360], in stream order, leaves read_String empty and sets process_state to
ps_run_program; the same holds for the whole case including the timeout
test. -/
theorem recv_command_stream (c : Control) (vs : List Nat) (last_space : Bool)
    (input : List (Nat × Nat)) (now : Nat)
    (hrs : c.read_String = []) (hne : vs ≠ [])
    (hint : ∀ v ∈ vs, (v : Int) ≤ 2147483647)
    (hin : input.map Prod.fst = command_stream vs last_space) :
    (recv_drain c input).queue = c.queue ++ accepted vs ∧
    (recv_drain c input).read_String = [] ∧
    (recv_drain c input).process_state = ps_run_program ∧
    (recv_BT_codes c input now).queue = c.queue ++ accepted vs ∧
    (recv_BT_codes c input now).process_state = ps_run_program := by
  have h := recv_drain_untimed input c
  rw [hin] at h
  obtain ⟨ps, rs, q, t, ms⟩ := c
  simp only at hrs
  subst hrs
  have h2 : (recv_drain ⟨ps, [], q, t, ms⟩ input).untimed
      = ⟨ps_run_program, [], q ++ accepted vs, 0, ms⟩ := by
    rw [h]
    exact recv_drain_command_stream ps ms last_space vs q hne hint
  have hq : (recv_drain ⟨ps, [], q, t, ms⟩ input).queue = q ++ accepted vs :=
    congrArg Control.queue h2
  have hr : (recv_drain ⟨ps, [], q, t, ms⟩ input).read_String = [] :=
    congrArg Control.read_String h2
  have hp : (recv_drain ⟨ps, [], q, t, ms⟩ input).process_state = ps_run_program :=
    congrArg Control.process_state h2
  refine ⟨hq, hr, hp, ?_, ?_⟩
  · unfold recv_BT_codes
    simp only []
    split_ifs
    · exact hq
    · exact hq
  · unfold recv_BT_codes
    simp only []
    split_ifs
    · rfl
    · exact hp

theorem recv_command_stream_witness :
    bytes "90 180 *" = command_stream [90, 180] true ∧
    (recv_drain ⟨ps_recv_BT_codes, [], [], 0, motors_zero⟩
      (at_time 7 (bytes "90 180 *"))).queue = [] ++ accepted [90, 180] ∧
    accepted [90, 180] = [90, 180] :=
  ⟨by decide,
    (recv_command_stream ⟨ps_recv_BT_codes, [], [], 0, motors_zero⟩ [90, 180] true
      (at_time 7 (bytes "90 180 *")) 8 rfl (by decide) (by decide) (by decide)).1,
    by decide⟩

/-! ## Command intake: malformed tokens -/

/-- A byte that is no digit, no space and no terminator only moves the
clock. -/
theorem recv_byte_skip (c : Control) (d : Nat) (hc : c.last_BT_cmd = 0)
    (hd : is_command_byte d = false) :
    recv_byte c d 0 = c := by
  simp only [is_command_byte, Bool.or_eq_false_iff] at hd
  obtain ⟨⟨h1, h2⟩, h3⟩ := hd
  obtain ⟨ps, rs, q, t, ms⟩ := c
  simp only at hc
  subst hc
  simp [recv_byte, h1, h2, h3]

/-- Skipped bytes can be removed from the stream, clock values put aside. -/
theorem recv_drain_filter :
    ∀ (stream : List Nat) (c : Control), c.last_BT_cmd = 0 →
      recv_drain c (at_time 0 stream)
        = recv_drain c (at_time 0 (stream.filter is_command_byte)) := by
  intro stream
  induction stream with
  | nil => intro c _; rfl
  | cons d rest ih =>
    intro c hc
    have h := ih (recv_byte c d 0) rfl
    simp only [at_time] at h
    cases hd : is_command_byte d with
    | false =>
      rw [recv_byte_skip c d hc hd] at h
      simp only [List.filter_cons, hd, at_time, List.map_cons, recv_drain]
      rw [recv_byte_skip c d hc hd]
      simpa using h
    | true =>
      simp only [List.filter_cons, hd, at_time, List.map_cons, recv_drain, if_true]
      exact h

/-- The conversion `toInt` never yields a negative value. -/
theorem toInt_nonneg (s : List Nat) : 0 ≤ toInt s := by
  unfold toInt LONG_MAX
  split_ifs <;> omega

/-- A space that arrives with an empty read_String enqueues 0: the stream
"90  180 " with two spaces in a row gives the queue [90, 0, 180]. -/
theorem recv_drain_double_space :
    (recv_drain ⟨ps_recv_BT_codes, [], [], 0, motors_zero⟩
      (at_time 0 (bytes "90  180 "))).queue = [90, 0, 180] := by
  decide

/-- C10, as the intake behaves: the stream "9a0 " makes the drain enqueue 90,
although its token contains a character that is no digit. -/
theorem recv_drain_9a0 :
    (recv_drain ⟨ps_recv_BT_codes, [], [], 0, motors_zero⟩
      (at_time 0 (bytes "9a0 "))).queue = [90] ∧
    (recv_drain ⟨ps_recv_BT_codes, [], [], 0, motors_zero⟩
      (at_time 0 (bytes "9a0 "))).queue
      ≠ (⟨ps_recv_BT_codes, [], [], 0, motors_zero⟩ : Control).queue := by
  decide

/-- C10 amended: in the drain of ps_recv_BT_codes, a byte that is neither the
space nor the terminator never changes the queue, and when it is no digit
either it changes neither read_String nor process_state; so the drain of a
stream gives the same queue, read_String and process_state as the drain of the
stream without these bytes (a token is converted from its digits alone). A
space or terminator that arrives with a non-empty read_String whose value is
outside [0,360] leaves the queue unchanged and clears read_String, and a
terminator that arrives with an empty read_String leaves the queue
unchanged. -/
theorem recv_malformed_token (c : Control) (data now : Nat) (input : List (Nat × Nat)) :
    (data ≠ 32 → data ≠ 42 → (recv_byte c data now).queue = c.queue) ∧
    (is_command_byte data = false →
      (recv_byte c data now).read_String = c.read_String ∧
      (recv_byte c data now).process_state = c.process_state) ∧
    ((recv_drain c input).queue
        = (recv_drain c (input.filter (fun p => is_command_byte p.1))).queue ∧
      (recv_drain c input).read_String
        = (recv_drain c (input.filter (fun p => is_command_byte p.1))).read_String ∧
      (recv_drain c input).process_state
        = (recv_drain c (input.filter (fun p => is_command_byte p.1))).process_state) ∧
    ((data = 32 ∨ data = 42) →
      ¬ (0 ≤ toInt c.read_String ∧ toInt c.read_String ≤ 360) →
      (recv_byte c data now).queue = c.queue ∧ (recv_byte c data now).read_String = []) ∧
    (c.read_String = [] → (recv_byte c 42 now).queue = c.queue) := by
  refine ⟨?_, ?_, ?_, ?_, ?_⟩
  · intro h32 h42
    simp [recv_byte, h32, h42]
  · intro hd
    simp only [is_command_byte, Bool.or_eq_false_iff] at hd
    obtain ⟨⟨h1, h2⟩, h3⟩ := hd
    simp [recv_byte, h1, h2, h3]
  · have hl := recv_drain_untimed input c
    have hr := recv_drain_untimed (input.filter (fun p => is_command_byte p.1)) c
    have hmap : (input.filter (fun p => is_command_byte p.1)).map Prod.fst
        = (input.map Prod.fst).filter is_command_byte := by
      rw [List.filter_map]
      rfl
    rw [hmap, ← recv_drain_filter _ c.untimed rfl, ← hl] at hr
    have hq : (recv_drain c input).untimed.queue = _ := congrArg Control.queue hr.symm
    have hs : (recv_drain c input).untimed.read_String = _ :=
      congrArg Control.read_String hr.symm
    have hp : (recv_drain c input).untimed.process_state = _ :=
      congrArg Control.process_state hr.symm
    exact ⟨hq, hs, hp⟩
  · intro hdata hout
    have hrs : c.read_String ≠ [] := by
      intro h
      rw [h] at hout
      exact hout (by decide)
    have hval : ¬ toInt c.read_String ≤ 360 :=
      fun h => hout ⟨toInt_nonneg c.read_String, h⟩
    rcases hdata with h | h <;> subst h <;> simp [recv_byte, isDigit, hrs, hval]
  · intro hrs
    simp [recv_byte, isDigit, hrs]

theorem recv_malformed_token_witness :
    ((32 = 32 ∨ 32 = 42) ∧
      ¬ (0 ≤ toInt (bytes "361") ∧ toInt (bytes "361") ≤ 360)) ∧
    ((recv_byte ⟨ps_recv_BT_codes, bytes "361", [90], 0, motors_zero⟩ 32 5).queue = [90] ∧
      (recv_byte ⟨ps_recv_BT_codes, bytes "361", [90], 0, motors_zero⟩ 32 5).read_String
        = []) :=
  ⟨by decide,
    (recv_malformed_token ⟨ps_recv_BT_codes, bytes "361", [90], 0, motors_zero⟩ 32 5 []).2.2.2.1
      (Or.inl rfl) (by decide)⟩

/-! ## The command queue: clear and get -/

/-- Clearing leaves the empty queue. -/
theorem code_queue_clear_eq_nil : ∀ q : Queue, code_queue_clear q = [] := by
  intro q
  induction q with
  | nil => rfl
  | cons front rest ih => simpa [code_queue_clear] using ih

/-- C14: for every queue, code_queue_clear returns (it is a total function)
and leaves the queue empty, so that code_queue_data_available and
code_queue_get then return false; clearing a cleared queue gives the same
empty queue. -/
theorem code_queue_clear_spec :
    ∀ q : Queue,
      code_queue_clear q = [] ∧
      code_queue_data_available (code_queue_clear q) = false ∧
      (∀ val : Int, code_queue_get (code_queue_clear q) val = (false, val, [])) ∧
      code_queue_clear (code_queue_clear q) = code_queue_clear q := by
  intro q
  rw [code_queue_clear_eq_nil q]
  exact ⟨rfl, rfl, fun _ => rfl, rfl⟩

/-- C15: code_queue_get on the empty queue returns false, leaves the queue
empty and does not change the content of val, however often it is called; on a
non-empty queue it returns true, writes the front element to val and removes
that element only, the others staying in their order. -/
theorem code_queue_get_spec :
    (∀ val : Int, code_queue_get [] val = (false, val, [])) ∧
    (∀ (n : Nat) (val : Int),
      Nat.iterate (fun r : Bool × Int × Queue => code_queue_get r.2.2 r.2.1) n
        (code_queue_get [] val) = (false, val, [])) ∧
    (∀ (front : Int) (rest : Queue) (val : Int),
      code_queue_get (front :: rest) val = (true, front, rest)) := by
  refine ⟨fun _ => rfl, ?_, fun _ _ _ => rfl⟩
  intro n val
  induction n with
  | zero => rfl
  | succ n ih =>
    rw [Function.iterate_succ_apply]
    exact ih

/-! ## The wheel targets of move_rover -/

/-- Rounding an integer gives the integer. -/
theorem c_round_intCast (n : Int) : c_round (n : ℝ) = n := by
  unfold c_round
  split_ifs with h
  · rw [Int.floor_eq_iff]
    constructor <;> norm_num
  · rw [Int.ceil_eq_iff]
    constructor <;> norm_num

/-- Rounding a real of absolute value below z + 1/2 gives an integer of
absolute value at most z. -/
theorem c_round_bounds (x : ℝ) (z : Int) (hlo : -((z : ℝ) + 1 / 2) < x)
    (hhi : x < (z : ℝ) + 1 / 2) : -z ≤ c_round x ∧ c_round x ≤ z := by
  have hz : (0 : ℝ) < (z : ℝ) + 1 / 2 := by linarith
  have hz0 : (0 : Int) ≤ z := by
    by_contra hneg
    have h1 : z ≤ -1 := by omega
    have h2 : (z : ℝ) ≤ -1 := by exact_mod_cast h1
    linarith
  unfold c_round
  split_ifs with h
  · constructor
    · have h0 : (0 : Int) ≤ ⌊x + 1 / 2⌋ := Int.floor_nonneg.mpr (by linarith)
      omega
    · have h1 : ⌊x + 1 / 2⌋ < z + 1 := by
        rw [Int.floor_lt]
        push_cast
        linarith
      omega
  · push_neg at h
    constructor
    · have h1 : -z - 1 < ⌈x - 1 / 2⌉ := by
        rw [Int.lt_ceil]
        push_cast
        linarith
      omega
    · have h1 : ⌈x - 1 / 2⌉ ≤ 0 := by
        rw [Int.ceil_le]
        push_cast
        linarith
      omega

/-- The store into int8_t keeps a value of the int8 range. -/
theorem toInt8_of_isInt8 (x : Int) (h : isInt8 x) : toInt8 x = x := by
  unfold isInt8 at h
  unfold toInt8
  omega

/-- C13: with sin and cos over the reals, move_rover at angle 0 computes, for
every integer speed, M1 = M2 = M3 = M4 = the speed clamped to [-100,100]; at
angle 90 with speed 100 it computes M1 = M4 = 100 and M2 = M3 = -100. -/
theorem move_rover_targets_cardinal :
    (∀ speed : Int,
      move_rover_targets 0 speed
        = ⟨max (-100) (min speed 100), max (-100) (min speed 100),
            max (-100) (min speed 100), max (-100) (min speed 100)⟩) ∧
    move_rover_targets 90 100 = ⟨100, -100, -100, 100⟩ := by
  constructor
  · intro speed
    unfold move_rover_targets
    simp only [zero_mul, zero_div, Real.sin_zero, Real.cos_zero, one_mul, add_zero,
      sub_zero]
    rw [c_round_intCast]
    have h : toInt8 (if (if speed > 100 then 100 else speed) < -100 then -100
        else if speed > 100 then 100 else speed) = max (-100) (min speed 100) := by
      unfold toInt8
      split_ifs <;> omega
    rw [h]
  · have hangle : ((90 : ℝ) * Real.pi) / 180 = Real.pi / 2 := by ring
    have h1 : c_round (100 : ℝ) = 100 := by
      have := c_round_intCast 100
      simpa using this
    have h2 : c_round (-100 : ℝ) = -100 := by
      have := c_round_intCast (-100)
      simpa using this
    unfold move_rover_targets
    simp only [hangle, Real.sin_pi_div_two, Real.cos_pi_div_two]
    norm_num
    rw [h1, h2]
    decide

/-- At speed 50 the sum vy + vx and the difference vy - vx have absolute value
below 71.5, whatever the angle. -/
theorem wheel_terms_50 (a : ℝ) :
    (-((71 : Int) : ℝ) - 1 / 2 < Real.cos a * 50 + Real.sin a * 50 ∧
      Real.cos a * 50 + Real.sin a * 50 < ((71 : Int) : ℝ) + 1 / 2) ∧
    (-((71 : Int) : ℝ) - 1 / 2 < Real.cos a * 50 - Real.sin a * 50 ∧
      Real.cos a * 50 - Real.sin a * 50 < ((71 : Int) : ℝ) + 1 / 2) := by
  have h := Real.sin_sq_add_cos_sq a
  have hp : (Real.cos a + Real.sin a) ^ 2 ≤ 2 := by nlinarith [sq_nonneg (Real.cos a - Real.sin a)]
  have hm : (Real.cos a - Real.sin a) ^ 2 ≤ 2 := by nlinarith [sq_nonneg (Real.cos a + Real.sin a)]
  push_cast
  refine ⟨⟨?_, ?_⟩, ⟨?_, ?_⟩⟩ <;> nlinarith

/-- At speed 50 every wheel target lies in [-71, 71]. -/
theorem move_rover_targets_50 (angle : ℝ) :
    (-71 ≤ (move_rover_targets angle 50).m0 ∧ (move_rover_targets angle 50).m0 ≤ 71) ∧
    (-71 ≤ (move_rover_targets angle 50).m1 ∧ (move_rover_targets angle 50).m1 ≤ 71) ∧
    (-71 ≤ (move_rover_targets angle 50).m2 ∧ (move_rover_targets angle 50).m2 ≤ 71) ∧
    (-71 ≤ (move_rover_targets angle 50).m3 ∧ (move_rover_targets angle 50).m3 ≤ 71) := by
  obtain ⟨⟨p1, p2⟩, ⟨m1, m2⟩⟩ := wheel_terms_50 ((angle * Real.pi) / 180)
  have hp := c_round_bounds
    (Real.cos ((angle * Real.pi) / 180) * 50 + Real.sin ((angle * Real.pi) / 180) * 50)
    71 (by linarith) p2
  have hm := c_round_bounds
    (Real.cos ((angle * Real.pi) / 180) * 50 - Real.sin ((angle * Real.pi) / 180) * 50)
    71 (by linarith) m2
  have hp8 : toInt8 (c_round (Real.cos ((angle * Real.pi) / 180) * 50
      + Real.sin ((angle * Real.pi) / 180) * 50))
      = c_round (Real.cos ((angle * Real.pi) / 180) * 50
        + Real.sin ((angle * Real.pi) / 180) * 50) :=
    toInt8_of_isInt8 _ ⟨by omega, by omega⟩
  have hm8 : toInt8 (c_round (Real.cos ((angle * Real.pi) / 180) * 50
      - Real.sin ((angle * Real.pi) / 180) * 50))
      = c_round (Real.cos ((angle * Real.pi) / 180) * 50
        - Real.sin ((angle * Real.pi) / 180) * 50) :=
    toInt8_of_isInt8 _ ⟨by omega, by omega⟩
  have ht : move_rover_targets angle 50
      = ⟨toInt8 (c_round (Real.cos ((angle * Real.pi) / 180) * 50
            + Real.sin ((angle * Real.pi) / 180) * 50)),
          toInt8 (c_round (Real.cos ((angle * Real.pi) / 180) * 50
            - Real.sin ((angle * Real.pi) / 180) * 50)),
          toInt8 (c_round (Real.cos ((angle * Real.pi) / 180) * 50
            - Real.sin ((angle * Real.pi) / 180) * 50)),
          toInt8 (c_round (Real.cos ((angle * Real.pi) / 180) * 50
            + Real.sin ((angle * Real.pi) / 180) * 50))⟩ := by
    unfold move_rover_targets
    norm_num
  rw [ht, hp8, hm8]
  exact ⟨hp, hm, hm, hp⟩

/-- At speed 50 the targets lie in the speed range. -/
theorem move_rover_targets_50_inSpeedRange (angle : ℝ) :
    (move_rover_targets angle 50).inSpeedRange := by
  obtain ⟨h0, h1, h2, h3⟩ := move_rover_targets_50 angle
  unfold Motors.inSpeedRange inSpeedRange
  omega

/-- C19: at speed 50, with sin and cos over the reals, all four targets of
move_rover lie in [-71,71], hence in [-100,100], whatever the angle; so from
every motor vector in [-100,100]^4 move_rover(angle, 50) returns, given fuel
for 35 passes or more, with motor_speeds equal to the targets after at most
ceil(171/5) = 35 calls of rover_set_motors. -/
theorem move_rover_50_terminates (angle : ℝ) :
    ((-71 ≤ (move_rover_targets angle 50).m0 ∧ (move_rover_targets angle 50).m0 ≤ 71) ∧
      (-71 ≤ (move_rover_targets angle 50).m1 ∧ (move_rover_targets angle 50).m1 ≤ 71) ∧
      (-71 ≤ (move_rover_targets angle 50).m2 ∧ (move_rover_targets angle 50).m2 ≤ 71) ∧
      (-71 ≤ (move_rover_targets angle 50).m3 ∧ (move_rover_targets angle 50).m3 ≤ 71)) ∧
    (move_rover_targets angle 50).inSpeedRange ∧
    (∀ motor_speeds : Motors, motor_speeds.inSpeedRange → ∀ fuel : Nat, 35 ≤ fuel →
      ∃ writes : List Motors,
        move_rover fuel angle 50 motor_speeds
          = some (move_rover_targets angle 50, writes) ∧
        writes.length ≤ 35) := by
  have hb := move_rover_targets_50 angle
  have hr := move_rover_targets_50_inSpeedRange angle
  refine ⟨hb, hr, ?_⟩
  intro ms hms fuel hfuel
  have hsteps : loop_steps ms (move_rover_targets angle 50) ≤ 35 := by
    obtain ⟨h0, h1, h2, h3⟩ := hb
    obtain ⟨c0, c1, c2, c3⟩ := hms
    unfold inSpeedRange at c0 c1 c2 c3
    simp only [loop_steps, max_distance]
    omega
  obtain ⟨writes, hw, hlen⟩ :=
    move_rover_loop_terminates (move_rover_targets angle 50) hr fuel ms hms (by omega)
  exact ⟨writes, hw, by omega⟩

theorem move_rover_50_terminates_witness :
    (motors_zero.inSpeedRange ∧ 35 ≤ 35) ∧
    ∃ writes : List Motors,
      move_rover 35 90 50 motors_zero = some (move_rover_targets 90 50, writes) ∧
      writes.length ≤ 35 :=
  ⟨by decide, (move_rover_50_terminates 90).2.2 motors_zero (by decide) 35 (le_refl _)⟩

/-- Towards a target outside the speed range the ramp steps as towards the
nearest end of the range. -/
theorem speed_ramp_saturated_target (current target : Int) (hc : inSpeedRange current) :
    (100 < target → speed_ramp current target = speed_ramp current 100) ∧
    (target < -100 → speed_ramp current target = speed_ramp current (-100)) := by
  have hhi : 100 < target →
      speed_ramp current target = if 100 - current > 5 then current + 5 else 100 := by
    intro h
    unfold inSpeedRange at hc
    unfold speed_ramp abs_int toInt8
    simp only []
    split_ifs <;> omega
  have hlo : target < -100 →
      speed_ramp current target = if current - -100 > 5 then current - 5 else -100 := by
    intro h
    unfold inSpeedRange at hc
    unfold speed_ramp abs_int toInt8
    simp only []
    split_ifs <;> omega
  constructor
  · intro h
    rw [hhi h, speed_ramp_eq current 100 hc (by decide)]
    unfold inSpeedRange at hc
    split_ifs <;> omega
  · intro h
    rw [hlo h, speed_ramp_eq current (-100) hc (by decide)]
    unfold inSpeedRange at hc
    split_ifs <;> omega

/-- A motor whose target lies outside the speed range is at the nearest end
of the range after 40 ramp steps, and stays there. -/
theorem iterate_speed_ramp_saturates (target : Int) :
    ∀ (k : Nat) (current : Int), inSpeedRange current → 40 ≤ k →
      (100 < target → Nat.iterate (fun x => speed_ramp x target) k current = 100) ∧
      (target < -100 → Nat.iterate (fun x => speed_ramp x target) k current = -100) := by
  have hsame : ∀ (bound : Int), (∀ c : Int, inSpeedRange c →
      speed_ramp c target = speed_ramp c bound) →
      ∀ (k : Nat) (c : Int), inSpeedRange c →
        Nat.iterate (fun x => speed_ramp x target) k c
          = Nat.iterate (fun x => speed_ramp x bound) k c := by
    intro bound hb k
    induction k with
    | zero => intro c _; rfl
    | succ k ih =>
      intro c hc
      rw [Function.iterate_succ_apply, Function.iterate_succ_apply, hb c hc]
      exact ih _ (speed_ramp_inSpeedRange c bound)
  intro k current hc hk
  have hsteps : ∀ bound : Int, inSpeedRange bound → ramp_steps current bound ≤ k := by
    intro bound hbound
    unfold inSpeedRange at hc hbound
    unfold ramp_steps
    omega
  constructor
  · intro h
    rw [hsame 100 (fun c hc1 => (speed_ramp_saturated_target c target hc1).1 h) k current hc]
    exact iterate_speed_ramp 100 (by decide) k current hc (hsteps 100 (by decide))
  · intro h
    rw [hsame (-100) (fun c hc1 => (speed_ramp_saturated_target c target hc1).2 h) k
      current hc]
    exact iterate_speed_ramp (-100) (by decide) k current hc (hsteps (-100) (by decide))

/-- Repeated calls of rover_set_motors with the same targets ramp each motor
on its own. -/
theorem run_set_motors_replicate (M : Motors) :
    ∀ (n : Nat) (motor_speeds : Motors),
      run_set_motors motor_speeds (List.replicate n M)
        = ⟨Nat.iterate (fun x => speed_ramp x M.m0) n motor_speeds.m0,
            Nat.iterate (fun x => speed_ramp x M.m1) n motor_speeds.m1,
            Nat.iterate (fun x => speed_ramp x M.m2) n motor_speeds.m2,
            Nat.iterate (fun x => speed_ramp x M.m3) n motor_speeds.m3⟩ := by
  intro n
  induction n with
  | zero => intro ms; rfl
  | succ n ih =>
    intro ms
    rw [List.replicate_succ, run_set_motors, ih]
    simp only [Function.iterate_succ_apply, rover_set_motors]

/-- C18: when one of the int8 targets M1..M4 lies outside [-100,100], as for
speed 100 at angle 45, the loop of move_rover never ends from a motor vector
in [-100,100]^4: the model returns none for every fuel, and after every number
n of rover_set_motors calls motor_speeds still differs from the targets, each
entry of motor_speeds staying in [-100,100]; from the 40th call on, a motor
whose target is above 100 is at 100 and one whose target is below -100 is at
-100. -/
theorem move_rover_loop_diverges (M motor_speeds : Motors) (_hM8 : M.isInt8)
    (hM : ¬ M.inSpeedRange) (hms : motor_speeds.inSpeedRange) :
    (∀ fuel : Nat, move_rover_loop M fuel motor_speeds = none) ∧
    (∀ n : Nat,
      speed_not_reached (run_set_motors motor_speeds (List.replicate n M)) M = true ∧
      (run_set_motors motor_speeds (List.replicate n M)).inSpeedRange) ∧
    (∀ n : Nat, 40 ≤ n →
      (100 < M.m0 → (run_set_motors motor_speeds (List.replicate n M)).m0 = 100) ∧
      (M.m0 < -100 → (run_set_motors motor_speeds (List.replicate n M)).m0 = -100) ∧
      (100 < M.m1 → (run_set_motors motor_speeds (List.replicate n M)).m1 = 100) ∧
      (M.m1 < -100 → (run_set_motors motor_speeds (List.replicate n M)).m1 = -100) ∧
      (100 < M.m2 → (run_set_motors motor_speeds (List.replicate n M)).m2 = 100) ∧
      (M.m2 < -100 → (run_set_motors motor_speeds (List.replicate n M)).m2 = -100) ∧
      (100 < M.m3 → (run_set_motors motor_speeds (List.replicate n M)).m3 = 100) ∧
      (M.m3 < -100 → (run_set_motors motor_speeds (List.replicate n M)).m3 = -100)) ∧
    (move_rover_targets 45 100).isInt8 ∧ ¬ (move_rover_targets 45 100).inSpeedRange := by
  refine ⟨fun fuel => move_rover_loop_never_ends M hM fuel motor_speeds hms, ?_, ?_, ?_⟩
  rotate_left
  · intro n hn
    rw [run_set_motors_replicate]
    have s0 := iterate_speed_ramp_saturates M.m0 n motor_speeds.m0 hms.1 hn
    have s1 := iterate_speed_ramp_saturates M.m1 n motor_speeds.m1 hms.2.1 hn
    have s2 := iterate_speed_ramp_saturates M.m2 n motor_speeds.m2 hms.2.2.1 hn
    have s3 := iterate_speed_ramp_saturates M.m3 n motor_speeds.m3 hms.2.2.2 hn
    exact ⟨s0.1, s0.2, s1.1, s1.2, s2.1, s2.2, s3.1, s3.2⟩
  · rw [move_rover_targets_45_100]
    decide
  · intro n
    have hr := run_set_motors_inSpeedRange (List.replicate n M) motor_speeds hms
    refine ⟨?_, hr⟩
    cases hc : speed_not_reached (run_set_motors motor_speeds (List.replicate n M)) M with
    | true => rfl
    | false =>
      rw [(speed_not_reached_eq_false _ _).mp hc] at hr
      exact absurd hr hM

theorem move_rover_loop_diverges_witness :
    ((⟨-115, 0, 0, -115⟩ : Motors).isInt8 ∧ ¬ (⟨-115, 0, 0, -115⟩ : Motors).inSpeedRange ∧
      motors_zero.inSpeedRange) ∧
    ∀ fuel : Nat, move_rover_loop ⟨-115, 0, 0, -115⟩ fuel motors_zero = none :=
  ⟨by decide,
    (move_rover_loop_diverges ⟨-115, 0, 0, -115⟩ motors_zero (by decide) (by decide)
      (by decide)).1⟩

/-! ## The state machine: running the program -/

/-- Two vectors in the speed range are at most 40 passes apart. -/
theorem loop_steps_le (motor_speeds M : Motors) (hms : motor_speeds.inSpeedRange)
    (hM : M.inSpeedRange) : loop_steps motor_speeds M ≤ 40 := by
  obtain ⟨c0, c1, c2, c3⟩ := hms
  obtain ⟨t0, t1, t2, t3⟩ := hM
  unfold inSpeedRange at c0 c1 c2 c3 t0 t1 t2 t3
  simp only [loop_steps, max_distance]
  omega

/-- With targets in the speed range and fuel for 41 passes the ramp loop
returns the targets from every vector: the first call brings the vector into
the speed range. -/
theorem move_rover_loop_terminates_any (M : Motors) (hM : M.inSpeedRange)
    (motor_speeds : Motors) (fuel : Nat) (hfuel : 41 ≤ fuel) :
    ∃ writes : List Motors, move_rover_loop M fuel motor_speeds = some (M, writes) := by
  obtain ⟨f, rfl⟩ : ∃ f, fuel = f + 1 := ⟨fuel - 1, by omega⟩
  cases hc : speed_not_reached motor_speeds M with
  | false =>
    have he := (speed_not_reached_eq_false motor_speeds M).mp hc
    refine ⟨[], ?_⟩
    unfold move_rover_loop
    rw [hc, he]
    simp
  | true =>
    have hr := rover_set_motors_inSpeedRange motor_speeds M
    have hs := loop_steps_le _ M hr hM
    obtain ⟨writes, hw, _⟩ :=
      move_rover_loop_terminates M hM f (rover_set_motors motor_speeds M) hr (by omega)
    refine ⟨rover_set_motors motor_speeds M :: writes, ?_⟩
    unfold move_rover_loop
    rw [hc, hw]
    simp

/-- The loop of ps_run_program empties the queue, one move_rover per command
in queue order. -/
theorem run_program_loop_returns (fuel : Nat) (hfuel : 41 ≤ fuel) :
    ∀ (passes : Nat) (q : Queue) (value : Int) (motor_speeds : Motors),
      q.length ≤ passes →
      ∃ (value1 : Int) (motor_speeds1 : Motors),
        run_program_loop fuel passes q value motor_speeds
          = some ([], value1, motor_speeds1, q.map (fun v => RoverCall.move_rover v 50)) := by
  intro passes
  induction passes with
  | zero =>
    intro q value ms hlen
    cases q with
    | nil => exact ⟨value, ms, rfl⟩
    | cons front rest => simp at hlen
  | succ passes ih =>
    intro q value ms hlen
    cases q with
    | nil => exact ⟨value, ms, rfl⟩
    | cons front rest =>
      obtain ⟨writes, hw⟩ := move_rover_loop_terminates_any
        (move_rover_targets (front : ℝ) 50) (move_rover_targets_50_inSpeedRange _) ms fuel hfuel
      obtain ⟨v1, ms1, hrest⟩ := ih rest front (move_rover_targets (front : ℝ) 50)
        (by simpa using hlen)
      refine ⟨v1, ms1, ?_⟩
      simp only [run_program_loop, code_queue_get, move_rover, hw, hrest, List.map_cons]

/-- C11: in the ps_run_program state with queue contents v1..vn, one
evaluation of the state machine (given fuel for 41 ramp passes and for the n
commands) calls move_rover(v_i, 50) for i = 1..n in that order, each value
once, then rover_stop, and ends with the queue empty, motor_speeds =
(0,0,0,0) and process_state = ps_stop, the other globals and the pending
input unchanged. -/
theorem run_program_spec (c : Control) (fuel : Nat) (pending : List (Nat × Nat))
    (now : Nat) (hstate : c.process_state = ps_run_program) (hfuel : 41 ≤ fuel)
    (hlen : c.queue.length ≤ fuel) :
    state_machine fuel c pending now
      = some ({ c with queue := [], motor_speeds := motors_zero, process_state := ps_stop },
          pending,
          c.queue.map (fun v => RoverCall.move_rover v 50) ++ [RoverCall.rover_stop]) := by
  obtain ⟨v1, ms1, hloop⟩ := run_program_loop_returns fuel hfuel fuel c.queue 0
    c.motor_speeds hlen
  obtain ⟨writes, hstop⟩ := move_rover_loop_terminates_any ⟨0, 0, 0, 0⟩ (by decide) ms1
    fuel hfuel
  rw [← rover_stop_eq_move_rover_loop] at hstop
  have hrun : run_program fuel c
      = some ({ c with queue := [], motor_speeds := motors_zero, process_state := ps_stop },
          c.queue.map (fun v => RoverCall.move_rover v 50) ++ [RoverCall.rover_stop]) := by
    simp only [run_program, hloop, hstop]
    rfl
  unfold state_machine
  rw [hstate, hrun]
  rfl

theorem run_program_spec_witness :
    ((⟨ps_run_program, [], [0, 90, 180, 270], 0, motors_zero⟩ : Control).process_state
        = ps_run_program ∧ 41 ≤ 41 ∧
      (⟨ps_run_program, [], [0, 90, 180, 270], 0, motors_zero⟩ : Control).queue.length ≤ 41) ∧
    state_machine 41 ⟨ps_run_program, [], [0, 90, 180, 270], 0, motors_zero⟩ [] 0
      = some (⟨ps_stop, [], [], 0, motors_zero⟩, [],
          [RoverCall.move_rover 0 50, RoverCall.move_rover 90 50,
            RoverCall.move_rover 180 50, RoverCall.move_rover 270 50,
            RoverCall.rover_stop]) :=
  ⟨by decide,
    run_program_spec ⟨ps_run_program, [], [0, 90, 180, 270], 0, motors_zero⟩ 41 [] 0 rfl
      (le_refl _) (by decide)⟩

/-! ## The state machine: waiting for and receiving commands -/

/-- C16: in the ps_wait_for_BT state, one evaluation of the state machine:
when the command source reports data available (some byte is pending) it
empties the queue and read_String, sets last_BT_cmd to the current time and
process_state to ps_recv_BT_codes, whatever the queue held; otherwise it
changes nothing. In both cases no pending byte is read, no motor call is made
and motor_speeds is unchanged. -/
theorem wait_for_BT_spec (c : Control) (fuel : Nat) (pending : List (Nat × Nat))
    (now : Nat) (hstate : c.process_state = ps_wait_for_BT) :
    (pending ≠ [] →
      state_machine fuel c pending now
        = some ({ c with
                  read_String := []
                  queue := []
                  last_BT_cmd := now
                  process_state := ps_recv_BT_codes }, pending, [])) ∧
    (pending = [] → state_machine fuel c pending now = some (c, pending, [])) ∧
    (∀ (c1 : Control) (rest : List (Nat × Nat)) (calls : List RoverCall),
      state_machine fuel c pending now = some (c1, rest, calls) →
      c1.motor_speeds = c.motor_speeds ∧ rest = pending ∧ calls = []) := by
  have hsm : state_machine fuel c pending now
      = some (wait_for_BT c (!pending.isEmpty) now, pending, []) := by
    unfold state_machine
    rw [hstate]
    rfl
  refine ⟨?_, ?_, ?_⟩
  · intro hp
    rw [hsm]
    cases pending with
    | nil => exact absurd rfl hp
    | cons b rest => simp [wait_for_BT, code_queue_clear_eq_nil]
  · intro hp
    rw [hsm, hp]
    rfl
  · intro c1 rest calls h
    rw [hsm] at h
    simp only [Option.some.injEq, Prod.mk.injEq] at h
    obtain ⟨h1, h2, h3⟩ := h
    refine ⟨?_, h2.symm, h3.symm⟩
    rw [← h1]
    unfold wait_for_BT
    split_ifs <;> rfl

theorem wait_for_BT_spec_witness :
    ((⟨ps_wait_for_BT, bytes "12", [7, 400], 3, motors_zero⟩ : Control).process_state
        = ps_wait_for_BT ∧ [((57 : Nat), (10 : Nat))] ≠ []) ∧
    state_machine 0 ⟨ps_wait_for_BT, bytes "12", [7, 400], 3, motors_zero⟩ [(57, 10)] 9
      = some (⟨ps_recv_BT_codes, [], [], 9, motors_zero⟩, [(57, 10)], []) :=
  ⟨by decide,
    (wait_for_BT_spec ⟨ps_wait_for_BT, bytes "12", [7, 400], 3, motors_zero⟩ 0 [(57, 10)] 9
      rfl).1 (by decide)⟩

/-- C12, as the timeout test behaves. When exactly 5000 ms have passed
(last_BT_cmd = 1000, millis() = 6000) the state stays ps_recv_BT_codes. When
last_BT_cmd + 5000 exceeds 2^32 - 1 (last_BT_cmd = 2^32 - 1000, the sum wraps
to 4000) the state becomes ps_run_program although only 100 ms have passed.
When the counter itself wraps (last_BT_cmd = 2^32 - 5500, and 5600 ms later
millis() = 100) the state stays although more than 5000 ms have passed. -/
theorem recv_timeout_boundary :
    (millis_after 1000 5000 = 6000 ∧
      (recv_BT_codes ⟨ps_recv_BT_codes, [], [], 1000, motors_zero⟩ []
        (millis_after 1000 5000)).process_state = ps_recv_BT_codes) ∧
    (millis_after 4294966296 100 = 4294966396 ∧
      (recv_BT_codes ⟨ps_recv_BT_codes, [], [], 4294966296, motors_zero⟩ []
        (millis_after 4294966296 100)).process_state = ps_run_program) ∧
    (millis_after 4294961796 5600 = 100 ∧
      (recv_BT_codes ⟨ps_recv_BT_codes, [], [], 4294961796, motors_zero⟩ []
        (millis_after 4294961796 5600)).process_state = ps_recv_BT_codes) := by
  decide

/-- C12 amended: in the ps_recv_BT_codes state, on an evaluation at which no
byte is available, the queue and read_String are unchanged and process_state
stays or becomes ps_run_program, for all values of the counter. When elapsed
ms have passed since last_BT_cmd was last set and the 32-bit counter has not
wrapped in between (last_BT_cmd + elapsed <= 2^32 - 1), the state becomes
ps_run_program, also with an empty queue, if elapsed > 5000; and when elapsed
<= 5000 and last_BT_cmd + 5000 <= 2^32 - 1, nothing changes. The value of
millis() is last_BT_cmd + elapsed reduced modulo 2^32. -/
theorem recv_timeout_spec (c : Control) (fuel : Nat) (now elapsed : Nat)
    (hstate : c.process_state = ps_recv_BT_codes) :
    (∃ c1 : Control, state_machine fuel c [] now = some (c1, [], []) ∧
      c1.queue = c.queue ∧ c1.read_String = c.read_String ∧
      (c1.process_state = ps_run_program ∨ c1.process_state = ps_recv_BT_codes)) ∧
    (c.last_BT_cmd + elapsed < 4294967296 → 5000 < elapsed →
      state_machine fuel c [] (millis_after c.last_BT_cmd elapsed)
        = some ({ c with process_state := ps_run_program }, [], [])) ∧
    (c.last_BT_cmd + 5000 < 4294967296 → elapsed ≤ 5000 →
      state_machine fuel c [] (millis_after c.last_BT_cmd elapsed)
        = some (c, [], [])) := by
  have hsm : ∀ t : Nat, state_machine fuel c [] t = some (recv_BT_codes c [] t, [], []) := by
    intro t
    unfold state_machine
    rw [hstate]
    rfl
  refine ⟨⟨recv_BT_codes c [] now, hsm now, ?_⟩, ?_, ?_⟩
  · unfold recv_BT_codes
    simp only [recv_drain]
    split_ifs
    · exact ⟨rfl, rfl, Or.inl rfl⟩
    · exact ⟨rfl, rfl, Or.inr hstate⟩
  · intro hwrap hlate
    have hnow : millis_after c.last_BT_cmd elapsed = c.last_BT_cmd + elapsed :=
      Nat.mod_eq_of_lt hwrap
    have hsum : (c.last_BT_cmd + 5000) % 4294967296 = c.last_BT_cmd + 5000 :=
      Nat.mod_eq_of_lt (by omega)
    rw [hsm, hnow]
    unfold recv_BT_codes
    simp only [recv_drain]
    rw [hsum, if_pos (by omega)]
  · intro hwrap hearly
    have hnow : millis_after c.last_BT_cmd elapsed = c.last_BT_cmd + elapsed :=
      Nat.mod_eq_of_lt (by omega)
    have hsum : (c.last_BT_cmd + 5000) % 4294967296 = c.last_BT_cmd + 5000 :=
      Nat.mod_eq_of_lt hwrap
    rw [hsm, hnow]
    unfold recv_BT_codes
    simp only [recv_drain]
    rw [hsum, if_neg (by omega)]

theorem recv_timeout_spec_witness :
    ((⟨ps_recv_BT_codes, bytes "12", [], 1000, motors_zero⟩ : Control).process_state
        = ps_recv_BT_codes ∧ 1000 + 5001 < 4294967296 ∧ 5000 < 5001) ∧
    state_machine 0 ⟨ps_recv_BT_codes, bytes "12", [], 1000, motors_zero⟩ []
        (millis_after 1000 5001)
      = some (⟨ps_run_program, bytes "12", [], 1000, motors_zero⟩, [], []) :=
  ⟨by decide,
    (recv_timeout_spec ⟨ps_recv_BT_codes, bytes "12", [], 1000, motors_zero⟩ 0 0 5001
      rfl).2.1 (by decide) (by decide)⟩

/-! ## The state machine: bytes after the terminator -/

/-- Once process_state is ps_run_program the drain keeps it. -/
theorem recv_drain_keeps_run_program :
    ∀ (input : List (Nat × Nat)) (c : Control), c.process_state = ps_run_program →
      (recv_drain c input).process_state = ps_run_program := by
  intro input
  induction input with
  | nil => intro c h; exact h
  | cons p rest ih =>
    intro c h
    obtain ⟨data, now⟩ := p
    simp only [recv_drain]
    apply ih
    simp only [recv_byte, h]
    split_ifs <;> rfl

/-- The drain reads on after the terminator: draining a stream that holds the
terminator is draining what follows it from the state reached at the
terminator, and process_state stays ps_run_program. -/
theorem recv_drain_after_terminator (c : Control) (before after : List (Nat × Nat))
    (now : Nat) :
    recv_drain c (before ++ (42, now) :: after)
      = recv_drain (recv_drain c (before ++ [(42, now)])) after ∧
    (recv_drain c (before ++ [(42, now)])).process_state = ps_run_program ∧
    (recv_drain c (before ++ (42, now) :: after)).process_state = ps_run_program := by
  have h1 : (recv_drain c (before ++ [(42, now)])).process_state = ps_run_program := by
    rw [recv_drain_append]
    rfl
  have h2 : recv_drain c (before ++ (42, now) :: after)
      = recv_drain (recv_drain c (before ++ [(42, now)])) after := by
    rw [← recv_drain_append, List.append_assoc]
    rfl
  refine ⟨h2, h1, ?_⟩
  rw [h2]
  exact recv_drain_keeps_run_program after _ h1

/-- C20 at the input "90 * 180 " on the empty queue: the drain reads on after
the terminator and process_state is ps_run_program at the end, but the queue
is [90, 0, 180] and not [90, 180]: the space after the terminator arrives with
an empty read_String and enqueues 0. Without that space, "90 *180 " gives
[90, 180]. -/
theorem recv_drain_90_star_180 :
    (recv_drain ⟨ps_recv_BT_codes, [], [], 0, motors_zero⟩
      (at_time 0 (bytes "90 * 180 "))).queue = [90, 0, 180] ∧
    (recv_drain ⟨ps_recv_BT_codes, [], [], 0, motors_zero⟩
      (at_time 0 (bytes "90 * 180 "))).process_state = ps_run_program ∧
    (recv_drain ⟨ps_recv_BT_codes, [], [], 0, motors_zero⟩
      (at_time 0 (bytes "90 *180 "))).queue = [90, 180] := by
  decide

/-! ## The range of the queued commands -/

/-- One pass of the drain enqueues nothing outside [0,360]. -/
theorem recv_byte_queue_in_range (c : Control) (data now : Nat)
    (h : queue_in_range c.queue) : queue_in_range (recv_byte c data now).queue := by
  unfold recv_byte
  simp only []
  generalize (if isDigit data = true then c.read_String ++ [data] else c.read_String) = rs
  split_ifs with hd hv
  · intro v hv1
    simp only [code_queue_add, List.mem_append, List.mem_singleton] at hv1
    rcases hv1 with hv1 | hv1
    · exact h v hv1
    · rw [hv1]
      simpa only [Bool.and_eq_true, decide_eq_true_eq, ge_iff_le] using hv
  · exact h
  · exact h

/-- The drain enqueues nothing outside [0,360]. -/
theorem recv_drain_queue_in_range :
    ∀ (input : List (Nat × Nat)) (c : Control), queue_in_range c.queue →
      queue_in_range (recv_drain c input).queue := by
  intro input
  induction input with
  | nil => intro c h; exact h
  | cons p rest ih =>
    intro c h
    obtain ⟨data, now⟩ := p
    simp only [recv_drain]
    exact ih _ (recv_byte_queue_in_range c data now h)

/-- The loop of ps_run_program leaves the queue empty whenever it returns. -/
theorem run_program_loop_queue (fuel : Nat) :
    ∀ (passes : Nat) (q : Queue) (value : Int) (motor_speeds : Motors) (q1 : Queue)
      (value1 : Int) (motor_speeds1 : Motors) (calls : List RoverCall),
      run_program_loop fuel passes q value motor_speeds
        = some (q1, value1, motor_speeds1, calls) → q1 = [] := by
  intro passes
  induction passes with
  | zero =>
    intro q value ms q1 value1 ms1 calls h
    cases q with
    | nil =>
      simp only [run_program_loop, code_queue_get, Option.some.injEq, Prod.mk.injEq] at h
      exact h.1.symm
    | cons front rest => simp [run_program_loop, code_queue_get] at h
  | succ passes ih =>
    intro q value ms q1 value1 ms1 calls h
    cases q with
    | nil =>
      simp only [run_program_loop, code_queue_get, Option.some.injEq, Prod.mk.injEq] at h
      exact h.1.symm
    | cons front rest =>
      simp only [run_program_loop, code_queue_get] at h
      cases hm : move_rover fuel (front : ℝ) 50 ms with
      | none => rw [hm] at h; simp at h
      | some r =>
        obtain ⟨ms2, w⟩ := r
        rw [hm] at h
        simp only at h
        cases hr : run_program_loop fuel passes rest front ms2 with
        | none => rw [hr] at h; simp at h
        | some r2 =>
          obtain ⟨q2, v2, ms3, calls2⟩ := r2
          rw [hr] at h
          simp only [Option.some.injEq, Prod.mk.injEq] at h
          rw [← h.1]
          exact ih rest front ms2 q2 v2 ms3 calls2 hr

/-- The circle of the demo: what the for loop appends. -/
theorem demo_circle :
    ∀ (l : List Nat) (q : Queue),
      l.foldl (fun (q : Queue) (n : Nat) => code_queue_add q ((n : Int) * 20)) q
        = q ++ l.map (fun (n : Nat) => (n : Int) * 20) := by
  intro l
  induction l with
  | nil => intro q; simp
  | cons n rest ih =>
    intro q
    rw [List.foldl_cons, List.map_cons, ih, code_queue_add, List.append_assoc]
    rfl

/-- The demo appends the square and the circle to the queue. -/
theorem demo_preload_queue (c : Control) :
    (demo_preload c).queue
      = c.queue ++ ([0, 0, 90, 90, 180, 180, 270, 270]
          ++ (List.range 19).map (fun (n : Nat) => (n : Int) * 20)) := by
  unfold demo_preload
  simp only []
  rw [demo_circle]
  simp only [code_queue_add, List.append_assoc]
  rfl

/-- One evaluation of the state machine keeps the commands in [0,360]. -/
theorem state_machine_queue_in_range (fuel : Nat) (c : Control)
    (pending : List (Nat × Nat)) (now : Nat) (c1 : Control) (rest : List (Nat × Nat))
    (calls : List RoverCall) (h : queue_in_range c.queue)
    (hsm : state_machine fuel c pending now = some (c1, rest, calls)) :
    queue_in_range c1.queue := by
  unfold state_machine at hsm
  split_ifs at hsm with h0 h10 h20 h30
  · unfold stop_case at hsm
    cases hr : rover_stop fuel c.motor_speeds with
    | none => rw [hr] at hsm; simp at hsm
    | some r =>
      rw [hr] at hsm
      simp only [Option.some.injEq, Prod.mk.injEq] at hsm
      rw [← hsm.1]
      exact h
  · simp only [Option.some.injEq, Prod.mk.injEq] at hsm
    rw [← hsm.1]
    unfold wait_for_BT
    split_ifs
    · simp only [code_queue_clear_eq_nil]
      intro v hv
      simp at hv
    · exact h
  · simp only [Option.some.injEq, Prod.mk.injEq] at hsm
    rw [← hsm.1]
    unfold recv_BT_codes
    simp only []
    split_ifs
    · exact recv_drain_queue_in_range pending c h
    · exact recv_drain_queue_in_range pending c h
  · unfold run_program at hsm
    cases hl : run_program_loop fuel fuel c.queue 0 c.motor_speeds with
    | none => rw [hl] at hsm; simp at hsm
    | some r =>
      obtain ⟨q1, v1, ms1, calls1⟩ := r
      have hq := run_program_loop_queue fuel fuel c.queue 0 c.motor_speeds q1 v1 ms1 calls1 hl
      rw [hl] at hsm
      simp only at hsm
      cases hr : rover_stop fuel ms1 with
      | none => rw [hr] at hsm; simp at hsm
      | some r2 =>
        rw [hr] at hsm
        simp only [Option.some.injEq, Prod.mk.injEq] at hsm
        rw [← hsm.1, hq]
        intro v hv
        simp at hv
  · simp only [Option.some.injEq, Prod.mk.injEq] at hsm
    rw [← hsm.1]
    exact h

/-- C17: queue range invariant. In every state reachable from the start
(empty queue) by state-machine evaluations on arbitrary input byte streams,
by presses of the demo button and by presses of Button B, every element of
the command queue is an integer in [0,360]. -/
theorem queue_range_invariant (c : Control) (h : Reachable c) :
    ∀ v ∈ c.queue, 0 ≤ v ∧ v ≤ 360 := by
  induction h with
  | start => intro v hv; simp [control_start] at hv
  | evaluation fuel c pending now c1 rest calls _ hsm ih =>
    exact state_machine_queue_in_range fuel c pending now c1 rest calls ih hsm
  | button_A c _ ih =>
    rw [demo_preload_queue]
    intro v hv
    rcases List.mem_append.mp hv with hv | hv
    · exact ih v hv
    · have hall : ∀ x ∈ ([0, 0, 90, 90, 180, 180, 270, 270]
          ++ (List.range 19).map (fun (n : Nat) => (n : Int) * 20)), 0 ≤ x ∧ x ≤ 360 := by
        decide
      exact hall v hv
  | button_B fuel c ms writes _ _ ih => exact ih

theorem queue_range_invariant_witness :
    Reachable (demo_preload control_start) ∧
    ∀ v ∈ (demo_preload control_start).queue, 0 ≤ v ∧ v ≤ 360 :=
  ⟨Reachable.button_A _ Reachable.start,
    queue_range_invariant (demo_preload control_start)
      (Reachable.button_A _ Reachable.start)⟩

end RoverC
